import Mathlib

/-! CuckooSet (task2/src/cuckooset.cpp): sequential model

A shallow embedding of the cuckoo hash set of `cuckooset.cpp`, executed by one
thread (the `LockGuard` and the mutex are no-ops then and are left out).

* Elements are `unsigned long` values, modelled as `Nat`.
* `the_capacity` and `the_size` are `size_t`; they are modelled as unbounded
  `Nat`, because both are bounded by the number of allocated buckets and stored
  elements, which exhausts the address space long before 2^64.
* `the_table[0]` and `the_table[1]` are arrays of `the_capacity` buckets. They are
  modelled as one function from the table index and the bucket index to the
  bucket; only indices below `the_capacity` are ever read or written, since
  every index the code computes is reduced modulo `the_capacity`. The arrays
  that `resize` allocates and fills are given as arrays, with their length, by
  `resizeArray`, and `resize_table_eq_array` relates the two.
* The hash pair `h0`, `h1` (hash.hpp) and the two probe constants
  `PROBE_THRESHOLD`, `PROBE_SIZE` (cuckooset.hpp) are parameters.
-/

namespace CuckooSet

/-- Modelled from the spec: the bucket container `ProbeSet` (its header is not
part of the sources). A bounded, unordered collection exposing size,
membership test, add, remove and "peek first element"; the stored elements are
kept in insertion order. -/
abbrev ProbeSet := List Nat

namespace ProbeSet

/-- Modelled from the spec: `ProbeSet::size`, the occupancy of the bucket. -/
def size (b : ProbeSet) : Nat := b.length

/-- Modelled from the spec: `ProbeSet::contains`, the membership test. -/
def contains (b : ProbeSet) (x : Nat) : Bool := decide (x ∈ b)

/-- Modelled from the spec: `ProbeSet::add`, which stores one more element. -/
def add (b : ProbeSet) (x : Nat) : ProbeSet := b ++ [x]

/-- Modelled from the spec: `ProbeSet::remove`, which takes one stored
occurrence of the element out of the bucket. -/
def remove (b : ProbeSet) (x : Nat) : ProbeSet := b.erase x

/-- Modelled from the spec: `ProbeSet::first`, "peek first element"; there is
nothing to peek in an empty bucket. -/
def first (b : ProbeSet) : Option Nat := b.head?

end ProbeSet

/-- `INITIAL_CAPACITY` (cuckooset.cpp, line 7). -/
def INITIAL_CAPACITY : Nat := 1024

/-- `RELOCATE_LIMIT` (cuckooset.cpp, line 8). -/
def RELOCATE_LIMIT : Nat := 512

/-- What the set is instantiated with and does not define itself: the hash pair
and the two probe constants. -/
structure Config where
  h0 : Nat → Nat
  h1 : Nat → Nat
  PROBE_THRESHOLD : Nat
  PROBE_SIZE : Nat

/-- The fields of the class `CuckooSet`. -/
structure State where
  the_capacity : Nat
  the_size : Nat
  the_table : Nat → Nat → ProbeSet

/-- How a call can fail to return: the recursion of `put` does not end within
the given number of nested calls, or `first()` is asked of an empty bucket. -/
inductive Fault where
  | out_of_fuel
  | first_on_empty
  deriving DecidableEq, Repr

/-- Assignment to the bucket `the_table[i][h]`. -/
def setBucket (s : State) (i h : Nat) (b : ProbeSet) : State :=
  { s with the_table := fun i' h' => if i' = i ∧ h' = h then b else s.the_table i' h' }

/-- The constructor `CuckooSet::CuckooSet` (lines 10-17). -/
def init : State :=
  { the_capacity := INITIAL_CAPACITY
    the_size := 0
    the_table := fun _ _ => [] }

/-- `CuckooSet::contains_nolock` (lines 86-97). -/
def contains_nolock (cfg : Config) (s : State) (item : Nat) : Bool :=
  let hash0 := cfg.h0 item % s.the_capacity
  let set0 := s.the_table 0 hash0
  let hash1 := cfg.h1 item % s.the_capacity
  let set1 := s.the_table 1 hash1
  set0.contains item || set1.contains item

/-- `CuckooSet::contains` (lines 78-84). -/
def contains (cfg : Config) (s : State) (item : Nat) : Bool :=
  contains_nolock cfg s item

/-- `CuckooSet::remove` (lines 99-124): the returned flag and the state after
the call. -/
def remove (cfg : Config) (s : State) (item : Nat) : Bool × State :=
  let hash0 := cfg.h0 item % s.the_capacity
  let set0 := s.the_table 0 hash0
  if set0.contains item then
    (true, { setBucket s 0 hash0 (set0.remove item) with the_size := s.the_size - 1 })
  else
    let hash1 := cfg.h1 item % s.the_capacity
    let set1 := s.the_table 1 hash1
    if set1.contains item then
      (true, { setBucket s 1 hash1 (set1.remove item) with the_size := s.the_size - 1 })
    else
      (false, s)

/-- `CuckooSet::size` (lines 133-138). -/
def size (s : State) : Nat := s.the_size

/-- `CuckooSet::is_empty` (lines 126-131). -/
def is_empty (s : State) : Bool := size s == 0

/-- `CuckooSet::resize` (lines 154-176): the capacity doubles, the old buckets
are copied to the same indices of the new arrays, the remaining buckets of the
new arrays are fresh. -/
def resize (s : State) : State :=
  let prev_capacity := s.the_capacity
  { the_capacity := prev_capacity * 2
    the_size := s.the_size
    the_table := fun k i => if i < prev_capacity then s.the_table k i else [] }

/-- The loop of `CuckooSet::relocate` (lines 188-216), with the number of rounds
that are left; `i`, `j`, `hi` are the loop-carried variables. -/
def relocateLoop (cfg : Config) : Nat → State → Nat → Nat → Nat → Except Fault (Bool × State)
  | 0, s, _, _, _ => .ok (false, s)
  | rounds + 1, s, i, j, hi =>
    let set_i := s.the_table i hi
    match set_i.first with
    | none => .error .first_on_empty
    | some y =>
      let hj := (if i = 0 then cfg.h1 y else cfg.h0 y) % s.the_capacity
      if set_i.contains y then
        let s1 := setBucket s i hi (set_i.remove y)
        let set_j := s1.the_table j hj
        if set_j.size < cfg.PROBE_THRESHOLD then
          .ok (true, setBucket s1 j hj (set_j.add y))
        else if set_j.size < cfg.PROBE_SIZE then
          relocateLoop cfg rounds (setBucket s1 j hj (set_j.add y)) (1 - i) i hj
        else
          .ok (false, setBucket s1 i hi ((s1.the_table i hi).add y))
      else if set_i.size ≥ cfg.PROBE_THRESHOLD then
        relocateLoop cfg rounds s i j hi
      else
        .ok (true, s)

/-- `CuckooSet::relocate` (lines 178-219). -/
def relocate (cfg : Config) (s : State) (k h : Nat) : Except Fault (Bool × State) :=
  relocateLoop cfg RELOCATE_LIMIT s k (1 - k) h

/-- What `put` does after it has released the lock with a relocation target
`(i, h)` recorded (lines 73-75). -/
def relocateOrResize (cfg : Config) (s : State) (i h : Nat) : Except Fault State :=
  match relocate cfg s i h with
  | .error e => .error e
  | .ok (true, s1) => .ok s1
  | .ok (false, s1) => .ok (resize s1)

/-- `CuckooSet::put` (lines 26-76). The first argument bounds the depth of the
recursive retries (line 72). -/
def put (cfg : Config) : Nat → State → Nat → Except Fault State
  | 0, _, _ => .error .out_of_fuel
  | fuel + 1, s, item =>
    if contains_nolock cfg s item then .ok s
    else
      let hash0 := cfg.h0 item % s.the_capacity
      let hash1 := cfg.h1 item % s.the_capacity
      let set0 := s.the_table 0 hash0
      let set1 := s.the_table 1 hash1
      if set0.size < cfg.PROBE_THRESHOLD then
        .ok { setBucket s 0 hash0 (set0.add item) with the_size := s.the_size + 1 }
      else if set1.size < cfg.PROBE_THRESHOLD then
        .ok { setBucket s 1 hash1 (set1.add item) with the_size := s.the_size + 1 }
      else if set0.size < cfg.PROBE_SIZE then
        relocateOrResize cfg
          { setBucket s 0 hash0 (set0.add item) with the_size := s.the_size + 1 } 0 hash0
      else if set1.size < cfg.PROBE_SIZE then
        relocateOrResize cfg
          { setBucket s 1 hash1 (set1.add item) with the_size := s.the_size + 1 } 1 hash1
      else
        put cfg fuel (resize s) item

/-- A call of one of the two mutating public operations. -/
inductive Op where
  | put (x : Nat)
  | remove (x : Nat)
  deriving DecidableEq, Repr

/-- One call applied to a state. -/
def step (cfg : Config) (fuel : Nat) (s : State) : Op → Except Fault State
  | .put x => put cfg fuel s x
  | .remove x => .ok (remove cfg s x).2

/-- A sequence of calls applied one after the other. -/
def run (cfg : Config) (fuel : Nat) : State → List Op → Except Fault State
  | s, [] => .ok s
  | s, op :: ops =>
    match step cfg fuel s op with
    | .error e => .error e
    | .ok s1 => run cfg fuel s1 ops

/-- What an observation of the state shows after a sequence of calls on the
freshly constructed set, when every call of the sequence returns. -/
def observe {α : Type} (cfg : Config) (fuel : Nat) (ops : List Op) (f : State → α) : Option α :=
  match run cfg fuel init ops with
  | .ok s => some (f s)
  | .error _ => none

/-! ## The operations with a record of what they do

`relocateLogged` and `putLogged` are `relocateLoop` and `put` again, line by line,
returning in addition the events of the call in the order they happen. -/

/-- What the instrumented operations record. -/
inductive Event where
  /-- An `add` applied to a bucket that holds `occ` elements
  (lines 47, 51, 55, 60, 200, 203, 208). -/
  | add (occ : Nat)
  /-- One loop iteration of `relocate`: `first()` is read from a source bucket
  that holds `occ` elements (line 190). -/
  | peek (occ : Nat)
  /-- The answer of the re-check `set_i->contains(y)` (line 197). -/
  | recheck (found : Bool)
  /-- The branch `continue` (line 212). -/
  | skipped
  /-- The branch `return true` of line 214. -/
  | drained
  /-- The loop ended because the limit was reached: `return false` (line 218). -/
  | exhausted
  /-- A call of `resize` (line 71 or 74). -/
  | resized
  /-- The state after a bucket was written or the tables were replaced. -/
  | state (s : State)

/-- The loop of `CuckooSet::relocate` (lines 188-218) with its record. -/
def relocateLogged (cfg : Config) :
    Nat → State → Nat → Nat → Nat → Except Fault (Bool × State) × List Event
  | 0, s, _, _, _ => (.ok (false, s), [.exhausted])
  | rounds + 1, s, i, j, hi =>
    let set_i := s.the_table i hi
    match set_i.first with
    | none => (.error .first_on_empty, [.peek set_i.size])
    | some y =>
      let hj := (if i = 0 then cfg.h1 y else cfg.h0 y) % s.the_capacity
      if set_i.contains y then
        let s1 := setBucket s i hi (set_i.remove y)
        let set_j := s1.the_table j hj
        if set_j.size < cfg.PROBE_THRESHOLD then
          (.ok (true, setBucket s1 j hj (set_j.add y)),
            [.peek set_i.size, .recheck true, .state s1, .add set_j.size,
              .state (setBucket s1 j hj (set_j.add y))])
        else if set_j.size < cfg.PROBE_SIZE then
          let r := relocateLogged cfg rounds (setBucket s1 j hj (set_j.add y)) (1 - i) i hj
          (r.1, [.peek set_i.size, .recheck true, .state s1, .add set_j.size,
            .state (setBucket s1 j hj (set_j.add y))] ++ r.2)
        else
          (.ok (false, setBucket s1 i hi ((s1.the_table i hi).add y)),
            [.peek set_i.size, .recheck true, .state s1, .add (s1.the_table i hi).size,
              .state (setBucket s1 i hi ((s1.the_table i hi).add y))])
      else if set_i.size ≥ cfg.PROBE_THRESHOLD then
        let r := relocateLogged cfg rounds s i j hi
        (r.1, [.peek set_i.size, .recheck false, .skipped] ++ r.2)
      else
        (.ok (true, s), [.peek set_i.size, .recheck false, .drained])

/-- Lines 73-75 of `put` with their record. -/
def relocateOrResizeLogged (cfg : Config) (s : State) (i h : Nat) :
    Except Fault State × List Event :=
  let r := relocateLogged cfg RELOCATE_LIMIT s i (1 - i) h
  match r.1 with
  | .error e => (.error e, r.2)
  | .ok (true, s1) => (.ok s1, r.2)
  | .ok (false, s1) => (.ok (resize s1), r.2 ++ [.resized, .state (resize s1)])

/-- `CuckooSet::put` (lines 26-76) with its record. -/
def putLogged (cfg : Config) : Nat → State → Nat → Except Fault State × List Event
  | 0, _, _ => (.error .out_of_fuel, [])
  | fuel + 1, s, item =>
    if contains_nolock cfg s item then (.ok s, [])
    else
      let hash0 := cfg.h0 item % s.the_capacity
      let hash1 := cfg.h1 item % s.the_capacity
      let set0 := s.the_table 0 hash0
      let set1 := s.the_table 1 hash1
      if set0.size < cfg.PROBE_THRESHOLD then
        let s1 : State := { setBucket s 0 hash0 (set0.add item) with the_size := s.the_size + 1 }
        (.ok s1, [.add set0.size, .state s1])
      else if set1.size < cfg.PROBE_THRESHOLD then
        let s1 : State := { setBucket s 1 hash1 (set1.add item) with the_size := s.the_size + 1 }
        (.ok s1, [.add set1.size, .state s1])
      else if set0.size < cfg.PROBE_SIZE then
        let s1 : State := { setBucket s 0 hash0 (set0.add item) with the_size := s.the_size + 1 }
        let r := relocateOrResizeLogged cfg s1 0 hash0
        (r.1, [.add set0.size, .state s1] ++ r.2)
      else if set1.size < cfg.PROBE_SIZE then
        let s1 : State := { setBucket s 1 hash1 (set1.add item) with the_size := s.the_size + 1 }
        let r := relocateOrResizeLogged cfg s1 1 hash1
        (r.1, [.add set1.size, .state s1] ++ r.2)
      else
        let r := putLogged cfg fuel (resize s) item
        (r.1, [.resized, .state (resize s)] ++ r.2)

/-- The new arrays of `resize` after `n` iterations of its copy loop
(lines 166-169). -/
def resizeCopy (s : State) (n : Nat) : Nat → Nat → ProbeSet :=
  fun k i => if i < n then s.the_table k i else []

/-- The allocation `new ProbeSet[n]` (lines 15-16 and 163-164): an array of `n`
buckets, each of them empty. -/
def newBuckets (n : Nat) : List ProbeSet :=
  List.replicate n []

/-- The copy loop of `resize` (lines 166-169) on one of the two new arrays:
the array after the iterations `i = 0 .. n - 1`, each of which assigns
`next[i] = old[i]`. -/
def copyLoop (old : Nat → ProbeSet) : Nat → List ProbeSet → List ProbeSet
  | 0, next => next
  | n + 1, next => (copyLoop old n next).set n (old n)

/-- The array `resize` installs as `the_table[k]` (lines 160-175): allocated
with the doubled capacity, then filled by the copy loop over the old
capacity. -/
def resizeArray (s : State) (k : Nat) : List ProbeSet :=
  let prev_capacity := s.the_capacity
  copyLoop (s.the_table k) prev_capacity (newBuckets (prev_capacity * 2))

/-- The flag `relocate` returns, when it returns. -/
def relocateFlag (cfg : Config) (s : State) (k h : Nat) : Option Bool :=
  match relocate cfg s k h with
  | .ok (b, _) => some b
  | .error _ => none

/-! ## The notions the properties are stated with -/

/-- The reference set of a sequence of calls: `put` inserts, `remove` deletes. -/
def refSet (ops : List Op) : Finset Nat :=
  ops.foldl
    (fun acc op =>
      match op with
      | .put x => insert x acc
      | .remove x => acc.erase x)
    ∅

/-- The hash function that indexes table `k`. -/
def hashOf (cfg : Config) (k : Nat) : Nat → Nat :=
  if k = 0 then cfg.h0 else cfg.h1

/-- Sum of the occupancies of the buckets of table `k`. -/
def tableOccupancy (s : State) (k : Nat) : Nat :=
  ∑ i in Finset.range s.the_capacity, (s.the_table k i).size

/-- Sum of the occupancies of all buckets of both tables. -/
def occupancy (s : State) : Nat :=
  tableOccupancy s 0 + tableOccupancy s 1

/-- Number of occurrences of `x` over the buckets of table `k`. -/
def tableOccurrences (s : State) (k x : Nat) : Nat :=
  ∑ i in Finset.range s.the_capacity, (s.the_table k i).count x

/-- Number of occurrences of `x` over all buckets of both tables. -/
def occurrences (s : State) (x : Nat) : Nat :=
  tableOccurrences s 0 x + tableOccurrences s 1 x

/-- The placement predicate: whatever is stored in bucket `i` of table `k` hashes
to `i` under the hash function of that table and the current capacity. -/
def Placement (cfg : Config) (s : State) : Prop :=
  ∀ k i y, k < 2 → i < s.the_capacity → y ∈ s.the_table k i →
    i = hashOf cfg k y % s.the_capacity

/-- The counter predicate: the capacity is not zero and `the_size` is the sum of
the occupancies of all buckets. -/
def Counted (s : State) : Prop :=
  0 < s.the_capacity ∧ size s = occupancy s

/-- The bucket bound: every bucket of both tables holds at most `PROBE_SIZE`
elements. -/
def Bounded (cfg : Config) (s : State) : Prop :=
  ∀ k i, (s.the_table k i).size ≤ cfg.PROBE_SIZE

/-- What the bucket bound asks of a recorded event: an `add` meets a bucket with
room, and a recorded state satisfies the bound. -/
def Event.within (cfg : Config) : Event → Prop
  | .add occ => occ < cfg.PROBE_SIZE
  | .state s => Bounded cfg s
  | _ => True

/-- What sequential execution asks of a recorded event: `first()` is read from a
bucket that is not empty, the re-check finds the element, and the two branches
of lines 211-215 are not taken. -/
def Event.sequential : Event → Prop
  | .peek occ => 0 < occ
  | .recheck found => found = true
  | .skipped => False
  | .drained => False
  | _ => True

/-- Whether the event is the start of a loop iteration of `relocate`. -/
def Event.isPeek : Event → Bool
  | .peek _ => true
  | _ => false

/-- Whether the event is a call of `resize`. -/
def Event.isResized : Event → Bool
  | .resized => true
  | _ => false

/-- Number of loop iterations of `relocate` in a record. -/
def iterations (log : List Event) : Nat :=
  log.countP Event.isPeek

/-- The elements stored in table `k`, with multiplicity. -/
def tableContents (s : State) (k : Nat) : Multiset Nat :=
  ∑ i in Finset.range s.the_capacity, (↑(s.the_table k i) : Multiset Nat)

/-- The multiset of all elements stored across both tables. -/
def contents (s : State) : Multiset Nat :=
  tableContents s 0 + tableContents s 1

/-- The state a result carries, or the given state when the call failed. -/
def stateOr (r : Except Fault State) (d : State) : State :=
  match r with
  | .ok s => s
  | .error _ => d

/-! ## Concrete instances used for the evaluations below -/

/-- Probe constants 2 and 4; both hash functions are the identity. -/
def idCfg : Config :=
  { h0 := fun z => z, h1 := fun z => z, PROBE_THRESHOLD := 2, PROBE_SIZE := 4 }

/-- Five insertions of multiples of 1024. Under `idCfg` all five have candidate
index 0 in both tables of the fresh set; the fifth overflows bucket 0 of
table 0, the relocation walk runs out of rounds and `put` resizes. -/
def fivePuts : List Op := [.put 1024, .put 2048, .put 3072, .put 4096, .put 5120]

/-- Eight insertions of elements `5 + k * 2^20`, `k = 1 .. 8`. Under `idCfg` all
eight have candidate index 5 in both tables at every capacity up to `2^20`, and
index 5 or `5 + 2^20` at capacity `2^21`. -/
def eightPuts : List Op :=
  [.put 1048581, .put 2097157, .put 3145733, .put 4194309,
   .put 5242885, .put 6291461, .put 7340037, .put 8388613]

/-- Probe constants 2 and 4; `h0` sends every element to 0 and `h1` is the
identity. -/
def splitCfg : Config :=
  { h0 := fun _ => 0, h1 := fun z => z, PROBE_THRESHOLD := 2, PROBE_SIZE := 4 }

/-- Four insertions under `splitCfg` that fill bucket 0 of table 0 and bucket 3 of
table 1 up to the threshold. -/
def fourPuts : List Op := [.put 1, .put 2, .put 3, .put 1027]

/-- The calls of the first of two threads: three insertions. -/
def threadA : List Op := [.put 1024, .put 2048, .put 3072]

/-- The calls of the second thread: three insertions of other elements. -/
def threadB : List Op := [.put 4096, .put 5120, .put 6144]

/-- A state with capacity 1024 in which bucket 0 of table 0 holds 1024, 2048,
3072 and bucket 0 of table 1 holds 5120, 6144, 7168, 8192. -/
def nearFullState : State :=
  { the_capacity := 1024
    the_size := 7
    the_table := fun k i =>
      if i = 0 then
        (if k = 0 then [1024, 2048, 3072]
         else if k = 1 then [5120, 6144, 7168, 8192] else [])
      else [] }

/-- A state with capacity 1024 in which bucket 0 of table 0 holds 1, 2, bucket 3
of table 1 holds 3, 1027, and every other bucket is empty: the state
`put 1; put 2; put 3; put 1027` reaches under `splitCfg`. -/
def thresholdState : State :=
  { the_capacity := 1024
    the_size := 4
    the_table := fun k i =>
      if k = 0 ∧ i = 0 then [1, 2] else if k = 1 ∧ i = 3 then [3, 1027] else [] }

/-- The state in which `put` starts the relocation walk on its overflow path
through table 0: `x` is added to the table-0 candidate bucket and counted
(lines 55-58). -/
def overflowed (cfg : Config) (s : State) (x : Nat) : State :=
  { setBucket s 0 (cfg.h0 x % s.the_capacity)
      ((s.the_table 0 (cfg.h0 x % s.the_capacity)).add x)
    with the_size := s.the_size + 1 }

/-! ## General lemmas -/

theorem observe_true {cfg : Config} {fuel : Nat} {ops : List Op} {f : State → Bool}
    (h : observe cfg fuel ops f = some true) :
    ∃ s, run cfg fuel init ops = .ok s ∧ f s = true := by
  unfold observe at h
  split at h
  · next s hs => exact ⟨s, hs, by simpa using h⟩
  · simp at h

/-- The flag `remove` returns is the answer `contains` gives before the call. -/
theorem remove_flag_eq_contains (cfg : Config) (s : State) (x : Nat) :
    (remove cfg s x).1 = contains cfg s x := by
  unfold remove contains contains_nolock
  simp only
  split
  · next h => simp [h]
  · next h =>
    split
    · next h1 => simp [h1]
    · next h1 => simp [h, h1]

theorem two_le_tableOccurrences (s : State) (k x i1 i2 : Nat)
    (h1 : i1 < s.the_capacity) (h2 : i2 < s.the_capacity) (hne : i1 ≠ i2)
    (m1 : x ∈ s.the_table k i1) (m2 : x ∈ s.the_table k i2) :
    2 ≤ tableOccurrences s k x := by
  unfold tableOccurrences
  have hsub : ({i1, i2} : Finset Nat) ⊆ Finset.range s.the_capacity := by
    intro a ha
    rcases Finset.mem_insert.mp ha with rfl | ha
    · exact Finset.mem_range.mpr h1
    · rw [Finset.mem_singleton.mp ha]; exact Finset.mem_range.mpr h2
  have hle := Finset.sum_le_sum_of_subset (f := fun i => (s.the_table k i).count x) hsub
  rw [Finset.sum_pair hne] at hle
  have c1 : 0 < (s.the_table k i1).count x := List.count_pos_iff.mpr m1
  have c2 : 0 < (s.the_table k i2).count x := List.count_pos_iff.mpr m2
  simp only at hle
  omega

theorem tableOccupancy_setBucket_ne (s : State) (i h k : Nat) (b : ProbeSet) (hk : k ≠ i) :
    tableOccupancy (setBucket s i h b) k = tableOccupancy s k := by
  unfold tableOccupancy setBucket
  exact Finset.sum_congr rfl (fun x _ => by simp [hk])

theorem tableOccupancy_setBucket_eq (s : State) (i h : Nat) (b : ProbeSet)
    (hh : h < s.the_capacity) :
    tableOccupancy (setBucket s i h b) i + (s.the_table i h).length
      = tableOccupancy s i + b.length := by
  unfold tableOccupancy setBucket
  have hm : h ∈ Finset.range s.the_capacity := Finset.mem_range.mpr hh
  simp only [ProbeSet.size]
  rw [← Finset.add_sum_erase _ _ hm,
    ← Finset.add_sum_erase _ (fun x => (s.the_table i x).length) hm]
  have hrest : ∀ x ∈ (Finset.range s.the_capacity).erase h,
      (if True ∧ x = h then b else s.the_table i x).length = (s.the_table i x).length :=
    fun x hx => by simp [(Finset.mem_erase.mp hx).1]
  rw [Finset.sum_congr rfl hrest]
  simp
  omega

theorem occupancy_setBucket (s : State) (i h : Nat) (b : ProbeSet) (hi : i ≤ 1)
    (hh : h < s.the_capacity) :
    occupancy (setBucket s i h b) + (s.the_table i h).length = occupancy s + b.length := by
  unfold occupancy
  have he := tableOccupancy_setBucket_eq s i h b hh
  rcases Nat.le_one_iff_eq_zero_or_eq_one.mp hi with rfl | rfl
  · have hn := tableOccupancy_setBucket_ne s 0 h 1 b (by decide)
    omega
  · have hn := tableOccupancy_setBucket_ne s 1 h 0 b (by decide)
    omega

theorem occupancy_with_size (s : State) (n : Nat) :
    occupancy { s with the_size := n } = occupancy s := rfl

theorem occupancy_resize (s : State) : occupancy (resize s) = occupancy s := by
  have key : ∀ k, tableOccupancy (resize s) k = tableOccupancy s k := by
    intro k
    unfold tableOccupancy resize
    simp only
    have hsub : Finset.range s.the_capacity ⊆ Finset.range (s.the_capacity * 2) := by
      intro a ha
      have := Finset.mem_range.mp ha
      exact Finset.mem_range.mpr (by omega)
    rw [← Finset.sum_subset hsub]
    · exact Finset.sum_congr rfl (fun x hx => by simp [Finset.mem_range.mp hx])
    · intro x _ hx
      have : ¬ x < s.the_capacity := fun h => hx (Finset.mem_range.mpr h)
      simp [this, ProbeSet.size]
  unfold occupancy
  rw [key 0, key 1]

theorem relocateLoop_counted (cfg : Config) :
    ∀ (n : Nat) (s : State) (i j hi : Nat) (b : Bool) (s' : State),
      0 < s.the_capacity → i ≤ 1 → j = 1 - i → hi < s.the_capacity →
      relocateLoop cfg n s i j hi = .ok (b, s') →
      s'.the_capacity = s.the_capacity ∧ s'.the_size = s.the_size
        ∧ occupancy s' = occupancy s := by
  intro n
  induction n with
  | zero =>
    intro s i j hi b s' _ _ _ _ h
    simp only [relocateLoop, Except.ok.injEq, Prod.mk.injEq] at h
    rw [← h.2]
    exact ⟨rfl, rfl, rfl⟩
  | succ n ih =>
    intro s i j hi b s' hc hi1 hj hhi h
    simp only [relocateLoop] at h
    split at h
    · simp at h
    · next y hy =>
      have hj1 : j ≤ 1 := by omega
      have hhj : (if i = 0 then cfg.h1 y else cfg.h0 y) % s.the_capacity < s.the_capacity :=
        Nat.mod_lt _ hc
      generalize (if i = 0 then cfg.h1 y else cfg.h0 y) % s.the_capacity = hj' at h hhj
      split at h
      · next hcont =>
        have hmem : y ∈ s.the_table i hi := by simpa [ProbeSet.contains] using hcont
        have hlen : (ProbeSet.remove (s.the_table i hi) y).length + 1
            = (s.the_table i hi).length := by
          have hpos : 0 < (s.the_table i hi).length := List.length_pos_of_mem hmem
          simp only [ProbeSet.remove, List.length_erase_of_mem hmem]
          omega
        have o1 := occupancy_setBucket s i hi (ProbeSet.remove (s.the_table i hi) y) hi1 hhi
        generalize hs1 : setBucket s i hi (ProbeSet.remove (s.the_table i hi) y) = s1 at h o1
        have hc1 : s1.the_capacity = s.the_capacity := by rw [← hs1]; rfl
        have hz1 : s1.the_size = s.the_size := by rw [← hs1]; rfl
        have o2 := occupancy_setBucket s1 j hj' (ProbeSet.add (s1.the_table j hj') y) hj1
          (by rw [hc1]; exact hhj)
        simp only [ProbeSet.add, List.length_append, List.length_singleton] at o2
        split at h
        · simp only [Except.ok.injEq, Prod.mk.injEq] at h
          rw [← h.2]
          refine ⟨hc1, hz1, ?_⟩
          simp only [ProbeSet.add]
          omega
        · split at h
          · have r := ih _ (1 - i) i hj' b s' (by simpa [setBucket, hc1] using hc) (by omega)
              (by omega) (by simpa [setBucket, hc1] using hhj) h
            refine ⟨r.1.trans hc1, r.2.1.trans hz1, ?_⟩
            rw [r.2.2]
            simp only [ProbeSet.add]
            omega
          · simp only [Except.ok.injEq, Prod.mk.injEq] at h
            rw [← h.2]
            have o3 := occupancy_setBucket s1 i hi (ProbeSet.add (s1.the_table i hi) y) hi1
              (by rw [hc1]; exact hhi)
            simp only [ProbeSet.add, List.length_append, List.length_singleton] at o3
            refine ⟨hc1, hz1, ?_⟩
            simp only [ProbeSet.add]
            omega
      · split at h
        · exact ih s i j hi b s' hc hi1 hj hhi h
        · simp only [Except.ok.injEq, Prod.mk.injEq] at h
          rw [← h.2]
          exact ⟨rfl, rfl, rfl⟩

theorem init_counted : Counted init := by
  refine ⟨by decide, ?_⟩
  simp [size, occupancy, tableOccupancy, init, ProbeSet.size]

theorem resize_counted (s : State) (h : Counted s) : Counted (resize s) := by
  refine ⟨?_, ?_⟩
  · have := h.1
    simp only [resize]
    omega
  · rw [occupancy_resize]
    exact h.2

theorem relocate_counted (cfg : Config) (s : State) (k h : Nat) (b : Bool) (s' : State)
    (hs : Counted s) (hk : k ≤ 1) (hh : h < s.the_capacity)
    (hr : relocate cfg s k h = .ok (b, s')) : Counted s' := by
  have r := relocateLoop_counted cfg RELOCATE_LIMIT s k (1 - k) h b s' hs.1 hk rfl hh hr
  refine ⟨by rw [r.1]; exact hs.1, ?_⟩
  simp only [size]
  rw [r.2.1, r.2.2]
  exact hs.2

theorem relocateOrResize_counted (cfg : Config) (s : State) (k h : Nat) (s' : State)
    (hs : Counted s) (hk : k ≤ 1) (hh : h < s.the_capacity)
    (hr : relocateOrResize cfg s k h = .ok s') : Counted s' := by
  unfold relocateOrResize at hr
  split at hr
  · simp at hr
  · next s1 h1 =>
    simp only [Except.ok.injEq] at hr
    rw [← hr]
    exact relocate_counted cfg s k h true s1 hs hk hh h1
  · next s1 h1 =>
    simp only [Except.ok.injEq] at hr
    rw [← hr]
    exact resize_counted s1 (relocate_counted cfg s k h false s1 hs hk hh h1)

theorem add_counted (s : State) (k h x : Nat) (hs : Counted s) (hk : k ≤ 1)
    (hh : h < s.the_capacity) :
    Counted { setBucket s k h ((s.the_table k h).add x) with the_size := s.the_size + 1 } := by
  refine ⟨hs.1, ?_⟩
  have o := occupancy_setBucket s k h ((s.the_table k h).add x) hk hh
  simp only [ProbeSet.add, List.length_append, List.length_singleton] at o
  have e := hs.2
  simp only [size] at e ⊢
  rw [occupancy_with_size]
  simp only [ProbeSet.add]
  omega

theorem erase_counted (s : State) (k h x : Nat) (hs : Counted s) (hk : k ≤ 1)
    (hh : h < s.the_capacity) (hx : (s.the_table k h).contains x = true) :
    Counted { setBucket s k h ((s.the_table k h).remove x) with the_size := s.the_size - 1 } := by
  refine ⟨hs.1, ?_⟩
  have hmem : x ∈ s.the_table k h := by simpa [ProbeSet.contains] using hx
  have hpos : 0 < (s.the_table k h).length := List.length_pos_of_mem hmem
  have o := occupancy_setBucket s k h ((s.the_table k h).remove x) hk hh
  simp only [ProbeSet.remove, List.length_erase_of_mem hmem] at o
  have e := hs.2
  simp only [size] at e ⊢
  rw [occupancy_with_size]
  simp only [ProbeSet.remove]
  omega

theorem put_counted (cfg : Config) :
    ∀ (fuel : Nat) (s : State) (x : Nat) (s' : State),
      Counted s → put cfg fuel s x = .ok s' → Counted s' := by
  intro fuel
  induction fuel with
  | zero =>
    intro s x s' _ h
    simp [put] at h
  | succ fuel ih =>
    intro s x s' hs h
    have h0 : cfg.h0 x % s.the_capacity < s.the_capacity := Nat.mod_lt _ hs.1
    have h1 : cfg.h1 x % s.the_capacity < s.the_capacity := Nat.mod_lt _ hs.1
    simp only [put] at h
    split at h
    · simp only [Except.ok.injEq] at h
      rw [← h]; exact hs
    · split at h
      · simp only [Except.ok.injEq] at h
        rw [← h]; exact add_counted s 0 _ x hs (by decide) h0
      · split at h
        · simp only [Except.ok.injEq] at h
          rw [← h]; exact add_counted s 1 _ x hs (by decide) h1
        · split at h
          · exact relocateOrResize_counted cfg _ 0 _ s'
              (add_counted s 0 _ x hs (by decide) h0) (by decide) h0 h
          · split at h
            · exact relocateOrResize_counted cfg _ 1 _ s'
                (add_counted s 1 _ x hs (by decide) h1) (by decide) h1 h
            · exact ih (resize s) x s' (resize_counted s hs) h

theorem remove_counted (cfg : Config) (s : State) (x : Nat) (hs : Counted s) :
    Counted (remove cfg s x).2 := by
  have h0 : cfg.h0 x % s.the_capacity < s.the_capacity := Nat.mod_lt _ hs.1
  have h1 : cfg.h1 x % s.the_capacity < s.the_capacity := Nat.mod_lt _ hs.1
  unfold remove
  simp only
  split
  · next hx => exact erase_counted s 0 _ x hs (by decide) h0 hx
  · split
    · next hx => exact erase_counted s 1 _ x hs (by decide) h1 hx
    · exact hs

theorem run_counted (cfg : Config) (fuel : Nat) :
    ∀ (ops : List Op) (s s' : State), Counted s → run cfg fuel s ops = .ok s' → Counted s' := by
  intro ops
  induction ops with
  | nil =>
    intro s s' hs h
    simp only [run, Except.ok.injEq] at h
    rw [← h]; exact hs
  | cons op ops ih =>
    intro s s' hs h
    simp only [run] at h
    split at h
    · simp at h
    · next s1 h1 =>
      refine ih s1 s' ?_ h
      cases op with
      | put x => exact put_counted cfg fuel s x s1 hs h1
      | remove x =>
        simp only [step, Except.ok.injEq] at h1
        rw [← h1]; exact remove_counted cfg s x hs

theorem resize_table_lt (s : State) (k i : Nat) (h : i < s.the_capacity) :
    (resize s).the_table k i = s.the_table k i := by
  simp [resize, h]

theorem resize_table_ge (s : State) (k i : Nat) (h : s.the_capacity ≤ i) :
    (resize s).the_table k i = [] := by
  simp [resize, Nat.not_lt.mpr h]

theorem contains_nolock_false (cfg : Config) (s : State) (x : Nat) :
    contains_nolock cfg s x = false ↔
      x ∉ s.the_table 0 (cfg.h0 x % s.the_capacity)
        ∧ x ∉ s.the_table 1 (cfg.h1 x % s.the_capacity) := by
  simp [contains_nolock, ProbeSet.contains]

theorem put_retry (cfg : Config) (fuel : Nat) (s : State) (x : Nat)
    (hTS : cfg.PROBE_THRESHOLD ≤ cfg.PROBE_SIZE)
    (hc : contains_nolock cfg s x = false)
    (f0 : cfg.PROBE_SIZE ≤ (s.the_table 0 (cfg.h0 x % s.the_capacity)).size)
    (f1 : cfg.PROBE_SIZE ≤ (s.the_table 1 (cfg.h1 x % s.the_capacity)).size) :
    put cfg (fuel + 1) s x = put cfg fuel (resize s) x := by
  have a0 : ¬ (s.the_table 0 (cfg.h0 x % s.the_capacity)).size < cfg.PROBE_THRESHOLD := by omega
  have a1 : ¬ (s.the_table 1 (cfg.h1 x % s.the_capacity)).size < cfg.PROBE_THRESHOLD := by omega
  have b0 : ¬ (s.the_table 0 (cfg.h0 x % s.the_capacity)).size < cfg.PROBE_SIZE := by omega
  have b1 : ¬ (s.the_table 1 (cfg.h1 x % s.the_capacity)).size < cfg.PROBE_SIZE := by omega
  simp only [put, hc, a0, a1, b0, b1, if_false, Bool.false_eq_true]

theorem put_fast0 (cfg : Config) (fuel : Nat) (s : State) (x : Nat)
    (hc : contains_nolock cfg s x = false)
    (h0 : (s.the_table 0 (cfg.h0 x % s.the_capacity)).size < cfg.PROBE_THRESHOLD) :
    put cfg (fuel + 1) s x =
      .ok { setBucket s 0 (cfg.h0 x % s.the_capacity)
              ((s.the_table 0 (cfg.h0 x % s.the_capacity)).add x)
            with the_size := s.the_size + 1 } := by
  simp only [put, hc, h0, if_true, if_false, Bool.false_eq_true]

theorem put_fast1 (cfg : Config) (fuel : Nat) (s : State) (x : Nat)
    (hc : contains_nolock cfg s x = false)
    (h0 : ¬ (s.the_table 0 (cfg.h0 x % s.the_capacity)).size < cfg.PROBE_THRESHOLD)
    (h1 : (s.the_table 1 (cfg.h1 x % s.the_capacity)).size < cfg.PROBE_THRESHOLD) :
    put cfg (fuel + 1) s x =
      .ok { setBucket s 1 (cfg.h1 x % s.the_capacity)
              ((s.the_table 1 (cfg.h1 x % s.the_capacity)).add x)
            with the_size := s.the_size + 1 } := by
  simp only [put, hc, h0, h1, if_true, if_false, Bool.false_eq_true]

/-- With both candidate buckets full and both hashes below the capacity, every
retry of `put` finds the same two full buckets. -/
theorem put_diverges (cfg : Config) (x : Nat)
    (hTS : cfg.PROBE_THRESHOLD ≤ cfg.PROBE_SIZE) :
    ∀ (fuel : Nat) (s : State),
      cfg.h0 x < s.the_capacity → cfg.h1 x < s.the_capacity →
      contains_nolock cfg s x = false →
      cfg.PROBE_SIZE ≤ (s.the_table 0 (cfg.h0 x % s.the_capacity)).size →
      cfg.PROBE_SIZE ≤ (s.the_table 1 (cfg.h1 x % s.the_capacity)).size →
      put cfg fuel s x = .error .out_of_fuel := by
  intro fuel
  induction fuel with
  | zero => intro s _ _ _ _ _; rfl
  | succ fuel ih =>
    intro s l0 l1 hc f0 f1
    rw [put_retry cfg fuel s x hTS hc f0 f1]
    have c2 : (resize s).the_capacity = s.the_capacity * 2 := rfl
    have m0 : cfg.h0 x % s.the_capacity = cfg.h0 x := Nat.mod_eq_of_lt l0
    have m1 : cfg.h1 x % s.the_capacity = cfg.h1 x := Nat.mod_eq_of_lt l1
    have n0 : cfg.h0 x % (resize s).the_capacity = cfg.h0 x :=
      Nat.mod_eq_of_lt (by rw [c2]; omega)
    have n1 : cfg.h1 x % (resize s).the_capacity = cfg.h1 x :=
      Nat.mod_eq_of_lt (by rw [c2]; omega)
    rw [m0] at f0
    rw [m1] at f1
    rw [contains_nolock_false, m0, m1] at hc
    apply ih (resize s) (by rw [c2]; omega) (by rw [c2]; omega)
    · rw [contains_nolock_false, n0, n1, resize_table_lt s 0 _ l0, resize_table_lt s 1 _ l1]
      exact hc
    · rw [n0, resize_table_lt s 0 _ l0]; exact f0
    · rw [n1, resize_table_lt s 1 _ l1]; exact f1

/-! ## Evaluations at the resize defect

`resize` copies every bucket to the index it had, while `contains_nolock`, `put`,
`remove` and `relocate` look an element up at its hash modulo the new capacity. -/

set_option maxRecDepth 100000 in
/-- C1 (membership correctness), evaluated: after `put 1024 .. put 5120` under
`idCfg` every call has returned, the last call that mentions 1024 is a `put`,
and `contains 1024` is false. -/
theorem membership_lost_after_resize :
    observe idCfg 1 fivePuts (fun s => contains idCfg s 1024) = some false
      ∧ 1024 ∈ refSet fivePuts := by
  decide

set_option maxRecDepth 100000 in
/-- C2 (insertion is never lost), evaluated: in the state reached by
`put 1024 .. put 4096` under `idCfg`, where 5120 is absent, `put 5120` takes the
overflow path, the relocation walk fails, `put` resizes and returns, and
`contains 5120` is false. -/
theorem put_lost_on_failed_relocation :
    observe idCfg 1 [.put 1024, .put 2048, .put 3072, .put 4096]
        (fun s => (s.the_capacity, contains idCfg s 5120)) = some (1024, false)
      ∧ observe idCfg 1 fivePuts (fun s => (s.the_capacity, contains idCfg s 5120))
        = some (2048, false) := by
  decide

/-- C3 (resize preserves the set), evaluated: in the state reached by `put 1024`
under `idCfg`, `contains 1024` is true before `resize` and false after it. -/
theorem resize_loses_element :
    observe idCfg 1 [.put 1024]
        (fun s => (contains idCfg s 1024, contains idCfg (resize s) 1024))
      = some (true, false) := by
  decide

set_option maxRecDepth 100000 in
/-- C4 (idempotent insert), evaluated: from the state reached by
`put 1024 .. put 4096` under `idCfg`, one `put 5120` gives size 5, and
`put 5120; put 5120` gives size 6 with a second copy of 5120 in bucket 1024 of
table 0. -/
theorem second_put_changes_state :
    observe idCfg 1 fivePuts (fun s => (size s, s.the_table 0 1024)) = some (5, [])
      ∧ observe idCfg 1 (fivePuts ++ [.put 5120]) (fun s => (size s, s.the_table 0 1024))
        = some (6, [5120]) := by
  decide

set_option maxRecDepth 100000 in
/-- C5 (result of remove), evaluated: in the state reached by
`put 1024 .. put 5120; put 5120; put 6144` under `idCfg`, `contains 5120` is
true, `remove 5120` returns true, and `contains 5120` is still true after it. -/
theorem remove_leaves_element :
    observe idCfg 1 (fivePuts ++ [.put 5120, .put 6144])
        (fun s => (contains idCfg s 5120, (remove idCfg s 5120).1,
          contains idCfg (remove idCfg s 5120).2 5120))
      = some (true, true, true) := by
  decide

set_option maxRecDepth 100000 in
/-- C6 (size accounting), evaluated: after `put 1024 .. put 5120; put 5120` under
`idCfg`, `size` is 6 while the reference set has 5 elements. -/
theorem size_counts_element_twice :
    observe idCfg 1 (fivePuts ++ [.put 5120]) size = some 6
      ∧ (refSet (fivePuts ++ [.put 5120])).card = 5 := by
  decide

set_option maxRecDepth 100000 in
/-- C7 (no duplication), evaluated: `put 1024 .. put 5120; put 5120` under `idCfg`
reaches a state in which 5120 occurs more than once over the buckets of the two
tables (in buckets 0 and 1024 of table 0). -/
theorem element_stored_twice :
    ∃ s, run idCfg 1 init (fivePuts ++ [.put 5120]) = .ok s ∧ 1 < occurrences s 5120 := by
  have h : observe idCfg 1 (fivePuts ++ [.put 5120])
      (fun s => decide (0 < s.the_capacity ∧ 1024 < s.the_capacity
        ∧ 5120 ∈ s.the_table 0 0 ∧ 5120 ∈ s.the_table 0 1024)) = some true := by
    decide
  obtain ⟨s, hs, hc⟩ := observe_true h
  simp only [decide_eq_true_eq] at hc
  refine ⟨s, hs, ?_⟩
  have := two_le_tableOccurrences s 0 5120 0 1024 hc.1 hc.2.1 (by decide) hc.2.2.1 hc.2.2.2
  unfold occurrences
  omega

set_option maxRecDepth 100000 in
/-- C8 (placement), evaluated: `put 1024 .. put 5120` under `idCfg` reaches a
state that violates the placement predicate: 1024 is stored in bucket 0 of
table 1 and hashes to index 1024 under the new capacity. -/
theorem placement_broken_by_resize :
    ∃ s, run idCfg 1 init fivePuts = .ok s ∧ ¬ Placement idCfg s := by
  have h : observe idCfg 1 fivePuts
      (fun s => decide (0 < s.the_capacity ∧ 1024 ∈ s.the_table 1 0
        ∧ 0 ≠ hashOf idCfg 1 1024 % s.the_capacity)) = some true := by
    decide
  obtain ⟨s, hs, hc⟩ := observe_true h
  simp only [decide_eq_true_eq] at hc
  exact ⟨s, hs, fun hp => hc.2.2 (hp 1 0 1024 (by decide) hc.1 hc.2.1)⟩

/-! ## The counter invariant -/

/-- C9 (counter invariant): in every state reached from the freshly constructed
set by a sequence of `put` and `remove` calls that have all returned, `size()`
is the sum of the occupancies of all buckets of the two tables; and a `remove`,
a returning `put`, a `resize` and a returning `relocate` on a bucket of the
tables, started in such a state, each end in a state where this holds again. -/
theorem counter_invariant (cfg : Config) (fuel : Nat) (ops : List Op) (s : State)
    (h : run cfg fuel init ops = .ok s) :
    size s = occupancy s
      ∧ (∀ x, size (remove cfg s x).2 = occupancy (remove cfg s x).2)
      ∧ (∀ fuel' x s', put cfg fuel' s x = .ok s' → size s' = occupancy s')
      ∧ size (resize s) = occupancy (resize s)
      ∧ (∀ k hh b s', k ≤ 1 → hh < s.the_capacity → relocate cfg s k hh = .ok (b, s') →
          size s' = occupancy s') := by
  have hs : Counted s := run_counted cfg fuel ops init s init_counted h
  exact ⟨hs.2, fun x => (remove_counted cfg s x hs).2,
    fun fuel' x s' hp => (put_counted cfg fuel' s x s' hs hp).2,
    (resize_counted s hs).2,
    fun k hh b s' hk hlt hr => (relocate_counted cfg s k hh b s' hs hk hlt hr).2⟩

/-- C9 at a concrete run: `put 7; put 9; remove 7` under `idCfg`. -/
theorem counter_invariant_witness :
    run idCfg 1 init [.put 7, .put 9, .remove 7]
        = .ok (stateOr (run idCfg 1 init [.put 7, .put 9, .remove 7]) init)
      ∧ size (stateOr (run idCfg 1 init [.put 7, .put 9, .remove 7]) init)
        = occupancy (stateOr (run idCfg 1 init [.put 7, .put 9, .remove 7]) init) :=
  ⟨rfl, (counter_invariant idCfg 1 [.put 7, .put 9, .remove 7]
    (stateOr (run idCfg 1 init [.put 7, .put 9, .remove 7]) init) rfl).1⟩

/-! ## `put` on two full candidate buckets -/

set_option maxRecDepth 100000 in
/-- C10 (capacity growth), evaluated: `eightPuts` under `idCfg` reaches a state
with capacity 16384 in which 5 is absent and both candidate buckets of 5 hold
`PROBE_SIZE` elements; there `put 5` does not return, whatever number of
resize-and-retry rounds it is given, because `resize` leaves the eight elements
in the two buckets with index 5. -/
theorem put_never_returns_on_copied_buckets :
    ∃ s, run idCfg 1 init eightPuts = .ok s
      ∧ s.the_capacity = 16384
      ∧ contains idCfg s 5 = false
      ∧ (s.the_table 0 (idCfg.h0 5 % s.the_capacity)).size = idCfg.PROBE_SIZE
      ∧ (s.the_table 1 (idCfg.h1 5 % s.the_capacity)).size = idCfg.PROBE_SIZE
      ∧ ∀ fuel, put idCfg fuel s 5 = .error .out_of_fuel := by
  have h : observe idCfg 1 eightPuts
      (fun s => decide (s.the_capacity = 16384
        ∧ contains idCfg s 5 = false
        ∧ (s.the_table 0 (idCfg.h0 5 % s.the_capacity)).size = idCfg.PROBE_SIZE
        ∧ (s.the_table 1 (idCfg.h1 5 % s.the_capacity)).size = idCfg.PROBE_SIZE))
      = some true := by
    decide
  obtain ⟨s, hs, hc⟩ := observe_true h
  simp only [decide_eq_true_eq] at hc
  obtain ⟨hcap, habs, hf0, hf1⟩ := hc
  refine ⟨s, hs, hcap, habs, hf0, hf1, fun fuel => ?_⟩
  exact put_diverges idCfg 5 (by decide) fuel s (by rw [hcap]; decide) (by rw [hcap]; decide)
    habs (Nat.le_of_eq hf0.symm) (Nat.le_of_eq hf1.symm)

/-! ## The instrumented operations agree with the operations -/

theorem relocateLogged_fst (cfg : Config) :
    ∀ (n : Nat) (s : State) (i j hi : Nat),
      (relocateLogged cfg n s i j hi).1 = relocateLoop cfg n s i j hi := by
  intro n
  induction n with
  | zero => intro s i j hi; rfl
  | succ n ih =>
    intro s i j hi
    simp only [relocateLogged, relocateLoop]
    split
    · rfl
    · simp only [apply_ite Prod.fst, ih]

theorem relocateOrResizeLogged_fst (cfg : Config) (s : State) (i h : Nat) :
    (relocateOrResizeLogged cfg s i h).1 = relocateOrResize cfg s i h := by
  unfold relocateOrResizeLogged relocateOrResize relocate
  simp only [relocateLogged_fst]
  split <;> simp_all

theorem putLogged_fst (cfg : Config) :
    ∀ (fuel : Nat) (s : State) (x : Nat), (putLogged cfg fuel s x).1 = put cfg fuel s x := by
  intro fuel
  induction fuel with
  | zero => intro s x; rfl
  | succ fuel ih =>
    intro s x
    simp only [putLogged, put]
    simp only [apply_ite Prod.fst, ih, relocateOrResizeLogged_fst]

/-! ## Capacity -/

theorem relocateLoop_capacity (cfg : Config) :
    ∀ (n : Nat) (s : State) (i j hi : Nat) (b : Bool) (s' : State),
      relocateLoop cfg n s i j hi = .ok (b, s') →
      s'.the_capacity = s.the_capacity ∧ s'.the_size = s.the_size := by
  intro n
  induction n with
  | zero =>
    intro s i j hi b s' h
    simp only [relocateLoop, Except.ok.injEq, Prod.mk.injEq] at h
    rw [← h.2]
    exact ⟨rfl, rfl⟩
  | succ n ih =>
    intro s i j hi b s' h
    simp only [relocateLoop] at h
    split at h
    · simp at h
    · next y hy =>
      generalize (if i = 0 then cfg.h1 y else cfg.h0 y) % s.the_capacity = hj' at h
      split at h
      · split at h
        · simp only [Except.ok.injEq, Prod.mk.injEq] at h
          rw [← h.2]; exact ⟨rfl, rfl⟩
        · split at h
          · have r := ih _ _ _ _ b s' h
            exact ⟨r.1.trans rfl, r.2.trans rfl⟩
          · simp only [Except.ok.injEq, Prod.mk.injEq] at h
            rw [← h.2]; exact ⟨rfl, rfl⟩
      · split at h
        · exact ih s i j hi b s' h
        · simp only [Except.ok.injEq, Prod.mk.injEq] at h
          rw [← h.2]; exact ⟨rfl, rfl⟩

/-- A returning `put` leaves the capacity as it was or multiplies it by a power
of two. -/
theorem put_capacity (cfg : Config) :
    ∀ (fuel : Nat) (s : State) (x : Nat) (s' : State),
      put cfg fuel s x = .ok s' → ∃ n, s'.the_capacity = s.the_capacity * 2 ^ n := by
  intro fuel
  induction fuel with
  | zero => intro s x s' h; simp [put] at h
  | succ fuel ih =>
    intro s x s' h
    have hrel : ∀ (t : State) (k hh : Nat), t.the_capacity = s.the_capacity →
        relocateOrResize cfg t k hh = .ok s' →
        ∃ n, s'.the_capacity = s.the_capacity * 2 ^ n := by
      intro t k hh ht hr
      unfold relocateOrResize at hr
      split at hr
      · simp at hr
      · next s1 h1 =>
        simp only [Except.ok.injEq] at hr
        rw [← hr]
        exact ⟨0, by rw [(relocateLoop_capacity cfg _ _ _ _ _ _ _ h1).1, ht]; simp⟩
      · next s1 h1 =>
        simp only [Except.ok.injEq] at hr
        rw [← hr]
        refine ⟨1, ?_⟩
        show s1.the_capacity * 2 = _
        rw [(relocateLoop_capacity cfg _ _ _ _ _ _ _ h1).1, ht]; simp
    simp only [put] at h
    split at h
    · simp only [Except.ok.injEq] at h
      rw [← h]; exact ⟨0, by simp⟩
    · split at h
      · simp only [Except.ok.injEq] at h
        rw [← h]; exact ⟨0, by simp [setBucket]⟩
      · split at h
        · simp only [Except.ok.injEq] at h
          rw [← h]; exact ⟨0, by simp [setBucket]⟩
        · split at h
          · refine hrel _ 0 _ ?_ h
            rfl
          · split at h
            · refine hrel _ 1 _ ?_ h
              rfl
            · obtain ⟨n, hn⟩ := ih (resize s) x s' h
              refine ⟨n + 1, ?_⟩
              rw [hn]
              show s.the_capacity * 2 * 2 ^ n = _
              rw [pow_succ]; ring

theorem remove_capacity (cfg : Config) (s : State) (x : Nat) :
    (remove cfg s x).2.the_capacity = s.the_capacity := by
  unfold remove
  simp only
  split
  · rfl
  · split <;> rfl

theorem run_capacity (cfg : Config) (fuel : Nat) :
    ∀ (ops : List Op) (s s' : State),
      run cfg fuel s ops = .ok s' → ∃ n, s'.the_capacity = s.the_capacity * 2 ^ n := by
  intro ops
  induction ops with
  | nil =>
    intro s s' h
    simp only [run, Except.ok.injEq] at h
    rw [← h]; exact ⟨0, by simp⟩
  | cons op ops ih =>
    intro s s' h
    simp only [run] at h
    split at h
    · simp at h
    · next s1 h1 =>
      obtain ⟨n, hn⟩ := ih s1 s' h
      have h2 : ∃ m, s1.the_capacity = s.the_capacity * 2 ^ m := by
        cases op with
        | put x => exact put_capacity cfg fuel s x s1 h1
        | remove x =>
          simp only [step, Except.ok.injEq] at h1
          rw [← h1]; exact ⟨0, by simp [remove_capacity]⟩
      obtain ⟨m, hm⟩ := h2
      exact ⟨m + n, by rw [hn, hm, pow_add]; ring⟩

theorem copyLoop_length (old : Nat → ProbeSet) :
    ∀ (n : Nat) (next : List ProbeSet), (copyLoop old n next).length = next.length := by
  intro n
  induction n with
  | zero => intro next; rfl
  | succ n ih =>
    intro next
    simp only [copyLoop, List.length_set, ih]

theorem copyLoop_getD (old : Nat → ProbeSet) :
    ∀ (n : Nat) (next : List ProbeSet) (i : Nat), n ≤ next.length →
      (copyLoop old n next).getD i [] = if i < n then old i else next.getD i [] := by
  intro n
  induction n with
  | zero => intro next i _; simp [copyLoop]
  | succ n ih =>
    intro next i hn
    have hlen : n < (copyLoop old n next).length := by rw [copyLoop_length]; omega
    simp only [copyLoop]
    by_cases e : i = n
    · subst e
      simp [List.getD_eq_getElem?_getD, List.getElem?_set, hlen]
    · have hne : ¬ n = i := fun h => e h.symm
      have := ih next i (by omega)
      simp only [List.getD_eq_getElem?_getD, List.getElem?_set, hne, if_false] at this ⊢
      rw [this]
      by_cases c : i < n
      · simp [c, Nat.lt_succ_of_lt c]
      · have c' : ¬ i < n + 1 := by omega
        simp [c, c']

theorem newBuckets_getD (n i : Nat) : (newBuckets n).getD i [] = [] := by
  unfold newBuckets
  by_cases h : i < n
  · simp [List.getD_eq_getElem?_getD, List.getElem?_replicate, h]
  · simp [List.getD_eq_getElem?_getD, List.getElem?_replicate, h]

/-- The bucket `resize` leaves at an index is the bucket of the array it has
installed; past the end of the array there is none. -/
theorem resize_table_eq_array (s : State) (k i : Nat) :
    (resize s).the_table k i = (resizeArray s k).getD i [] := by
  unfold resizeArray
  simp only
  rw [copyLoop_getD _ _ _ _ (by simp only [newBuckets, List.length_replicate]; omega),
    newBuckets_getD]
  rfl

theorem resizeArray_length (s : State) (k : Nat) :
    (resizeArray s k).length = (resize s).the_capacity := by
  unfold resizeArray
  simp only [copyLoop_length, newBuckets, List.length_replicate]
  rfl

/-- C12 (resize doubles the capacity): for every state, `resize` makes the
capacity exactly twice what it was, keeps `size()`, and installs two arrays
that each have exactly that many buckets, the ones below the old capacity
being the old buckets and the others fresh; so in every state reached from the
freshly constructed set the capacity is `INITIAL_CAPACITY` times a power of two,
is not zero, and every index reduced modulo the capacity is a bucket of the
arrays. -/
theorem resize_doubles_capacity (cfg : Config) (fuel : Nat) (ops : List Op) (s : State)
    (h : run cfg fuel init ops = .ok s) :
    (∀ t : State,
        (resize t).the_capacity = 2 * t.the_capacity
          ∧ (resizeArray t 0).length = (resize t).the_capacity
          ∧ (resizeArray t 1).length = (resize t).the_capacity
          ∧ (∀ k i, (resize t).the_table k i = (resizeArray t k).getD i [])
          ∧ size (resize t) = size t
          ∧ (∀ k i, i < t.the_capacity → (resize t).the_table k i = t.the_table k i)
          ∧ (∀ k i, t.the_capacity ≤ i → (resize t).the_table k i = [])
          ∧ (resize t).the_table = resizeCopy t t.the_capacity)
      ∧ (∃ n, s.the_capacity = INITIAL_CAPACITY * 2 ^ n)
      ∧ 0 < s.the_capacity
      ∧ (∀ a, a % s.the_capacity < s.the_capacity) := by
  obtain ⟨n, hn⟩ := run_capacity cfg fuel ops init s h
  have hpos : 0 < s.the_capacity := by
    rw [hn]
    exact Nat.mul_pos (by decide) (Nat.pow_pos (by decide))
  refine ⟨fun t => ⟨?_, resizeArray_length t 0, resizeArray_length t 1,
    fun k i => resize_table_eq_array t k i, rfl, fun k i hi => resize_table_lt t k i hi,
    fun k i hi => resize_table_ge t k i hi, rfl⟩, ⟨n, hn⟩, hpos, fun a => Nat.mod_lt _ hpos⟩
  show t.the_capacity * 2 = 2 * t.the_capacity
  omega

/-- C12 at a concrete run: `put 7; put 9; remove 7` under `idCfg`. -/
theorem resize_doubles_capacity_witness :
    run idCfg 1 init [.put 7, .put 9, .remove 7]
        = .ok (stateOr (run idCfg 1 init [.put 7, .put 9, .remove 7]) init)
      ∧ (∃ n, (stateOr (run idCfg 1 init [.put 7, .put 9, .remove 7]) init).the_capacity
          = INITIAL_CAPACITY * 2 ^ n)
      ∧ 0 < (stateOr (run idCfg 1 init [.put 7, .put 9, .remove 7]) init).the_capacity :=
  ⟨rfl, (resize_doubles_capacity idCfg 1 [.put 7, .put 9, .remove 7]
      (stateOr (run idCfg 1 init [.put 7, .put 9, .remove 7]) init) rfl).2.1,
    (resize_doubles_capacity idCfg 1 [.put 7, .put 9, .remove 7]
      (stateOr (run idCfg 1 init [.put 7, .put 9, .remove 7]) init) rfl).2.2.1⟩

/-! ## Fast path of `put`, frame of `remove` -/

theorem tableOccurrences_setBucket_ne (s : State) (i h k x : Nat) (b : ProbeSet) (hk : k ≠ i) :
    tableOccurrences (setBucket s i h b) k x = tableOccurrences s k x := by
  unfold tableOccurrences setBucket
  exact Finset.sum_congr rfl (fun a _ => by simp [hk])

theorem tableOccurrences_setBucket_eq (s : State) (i h x : Nat) (b : ProbeSet)
    (hh : h < s.the_capacity) :
    tableOccurrences (setBucket s i h b) i x + (s.the_table i h).count x
      = tableOccurrences s i x + b.count x := by
  unfold tableOccurrences setBucket
  have hm : h ∈ Finset.range s.the_capacity := Finset.mem_range.mpr hh
  simp only
  rw [← Finset.add_sum_erase _ _ hm,
    ← Finset.add_sum_erase _ (fun a => (s.the_table i a).count x) hm]
  have hrest : ∀ a ∈ (Finset.range s.the_capacity).erase h,
      List.count x (if True ∧ a = h then b else s.the_table i a)
        = List.count x (s.the_table i a) :=
    fun a ha => by simp [(Finset.mem_erase.mp ha).1]
  rw [Finset.sum_congr rfl hrest]
  simp
  omega

theorem occurrences_setBucket (s : State) (i h x : Nat) (b : ProbeSet) (hi : i ≤ 1)
    (hh : h < s.the_capacity) :
    occurrences (setBucket s i h b) x + (s.the_table i h).count x
      = occurrences s x + b.count x := by
  unfold occurrences
  have he := tableOccurrences_setBucket_eq s i h x b hh
  rcases Nat.le_one_iff_eq_zero_or_eq_one.mp hi with rfl | rfl
  · have hn := tableOccurrences_setBucket_ne s 0 h 1 x b (by decide)
    omega
  · have hn := tableOccurrences_setBucket_ne s 1 h 0 x b (by decide)
    omega

theorem occurrences_with_size (s : State) (n x : Nat) :
    occurrences { s with the_size := n } x = occurrences s x := rfl

theorem occurrences_init (x : Nat) : occurrences init x = 0 := by
  simp [occurrences, tableOccurrences, init]

theorem bucket_le_occupancy (s : State) (k h : Nat) (hk : k ≤ 1) (hh : h < s.the_capacity) :
    (s.the_table k h).length ≤ occupancy s := by
  have o := occupancy_setBucket s k h [] hk hh
  simp only [List.length_nil] at o
  omega

/-- C16 (fast path of put): when `x` is absent and the table-0 candidate bucket
is below `PROBE_THRESHOLD`, `put x` returns a state in which that bucket has `x`
added, `size()` is one more, the capacity and every other bucket are as before,
and the call consists of that one `add` (no relocation, no resize); when the
table-0 candidate bucket is at or above the threshold and the table-1 candidate
bucket is below it, the same holds with the table-1 bucket. -/
theorem put_fast_path (cfg : Config) (fuel : Nat) (s : State) (x : Nat)
    (habs : contains cfg s x = false) :
    ((s.the_table 0 (cfg.h0 x % s.the_capacity)).size < cfg.PROBE_THRESHOLD →
      ∃ s', put cfg (fuel + 1) s x = .ok s'
        ∧ s'.the_table 0 (cfg.h0 x % s.the_capacity)
            = (s.the_table 0 (cfg.h0 x % s.the_capacity)).add x
        ∧ size s' = size s + 1
        ∧ s'.the_capacity = s.the_capacity
        ∧ (∀ k i, ¬ (k = 0 ∧ i = cfg.h0 x % s.the_capacity) →
            s'.the_table k i = s.the_table k i)
        ∧ (putLogged cfg (fuel + 1) s x).2
            = [.add (s.the_table 0 (cfg.h0 x % s.the_capacity)).size, .state s'])
    ∧ (¬ (s.the_table 0 (cfg.h0 x % s.the_capacity)).size < cfg.PROBE_THRESHOLD →
      (s.the_table 1 (cfg.h1 x % s.the_capacity)).size < cfg.PROBE_THRESHOLD →
      ∃ s', put cfg (fuel + 1) s x = .ok s'
        ∧ s'.the_table 1 (cfg.h1 x % s.the_capacity)
            = (s.the_table 1 (cfg.h1 x % s.the_capacity)).add x
        ∧ size s' = size s + 1
        ∧ s'.the_capacity = s.the_capacity
        ∧ (∀ k i, ¬ (k = 1 ∧ i = cfg.h1 x % s.the_capacity) →
            s'.the_table k i = s.the_table k i)
        ∧ (putLogged cfg (fuel + 1) s x).2
            = [.add (s.the_table 1 (cfg.h1 x % s.the_capacity)).size, .state s']) := by
  have hc : contains_nolock cfg s x = false := habs
  constructor
  · intro h0
    refine ⟨_, put_fast0 cfg fuel s x hc h0, ?_, rfl, rfl, ?_, ?_⟩
    · simp [setBucket]
    · intro k i hne
      simp [setBucket, hne]
    · simp only [putLogged, hc, h0, if_true, if_false, Bool.false_eq_true]
  · intro h0 h1
    refine ⟨_, put_fast1 cfg fuel s x hc h0 h1, ?_, rfl, rfl, ?_, ?_⟩
    · simp [setBucket]
    · intro k i hne
      simp [setBucket, hne]
    · simp only [putLogged, hc, h0, h1, if_true, if_false, Bool.false_eq_true]

/-- C16 at a concrete input: `put 7` on the fresh set under `idCfg`. -/
theorem put_fast_path_witness :
    contains idCfg init 7 = false
      ∧ ((init.the_table 0 (idCfg.h0 7 % init.the_capacity)).size < idCfg.PROBE_THRESHOLD →
        ∃ s', put idCfg 1 init 7 = .ok s'
          ∧ s'.the_table 0 (idCfg.h0 7 % init.the_capacity)
              = (init.the_table 0 (idCfg.h0 7 % init.the_capacity)).add 7
          ∧ size s' = size init + 1
          ∧ s'.the_capacity = init.the_capacity
          ∧ (∀ k i, ¬ (k = 0 ∧ i = idCfg.h0 7 % init.the_capacity) →
              s'.the_table k i = init.the_table k i)
          ∧ (putLogged idCfg 1 init 7).2
              = [.add (init.the_table 0 (idCfg.h0 7 % init.the_capacity)).size, .state s']) :=
  ⟨by decide, (put_fast_path idCfg 0 init 7 (by decide)).1⟩

/-- C19 (frame of remove): a `remove x` that returns false leaves the state as it
was; a `remove x` that returns true takes one occurrence of `x` out of the
table-0 candidate bucket if that bucket contains `x` and otherwise out of the
table-1 candidate bucket, sets `the_size` to one less (exactly one less
whenever the counter invariant holds before the call), leaves the capacity and
every other bucket as they were, and leaves `contains y` as it was for every
`y` other than `x`. -/
theorem remove_frame (cfg : Config) (s : State) (x : Nat) :
    ((remove cfg s x).1 = false → (remove cfg s x).2 = s)
    ∧ ((remove cfg s x).1 = true →
        ∃ k h, (k = 0 ∧ h = cfg.h0 x % s.the_capacity ∧ x ∈ s.the_table 0 h
            ∨ k = 1 ∧ h = cfg.h1 x % s.the_capacity ∧ x ∈ s.the_table 1 h
              ∧ x ∉ s.the_table 0 (cfg.h0 x % s.the_capacity))
          ∧ (remove cfg s x).2.the_table k h = (s.the_table k h).remove x
          ∧ ((remove cfg s x).2.the_table k h).count x + 1 = (s.the_table k h).count x
          ∧ (∀ k' i, ¬ (k' = k ∧ i = h) → (remove cfg s x).2.the_table k' i = s.the_table k' i)
          ∧ size (remove cfg s x).2 = size s - 1
          ∧ (Counted s → size (remove cfg s x).2 + 1 = size s)
          ∧ (remove cfg s x).2.the_capacity = s.the_capacity
          ∧ (∀ y, y ≠ x → contains cfg (remove cfg s x).2 y = contains cfg s y)) := by
  have frame : ∀ (k h : Nat), k ≤ 1 → (0 < s.the_capacity → h < s.the_capacity) →
      x ∈ s.the_table k h →
      ∀ t : State, t = { setBucket s k h ((s.the_table k h).remove x)
                          with the_size := s.the_size - 1 } →
        t.the_table k h = (s.the_table k h).remove x
          ∧ (t.the_table k h).count x + 1 = (s.the_table k h).count x
          ∧ (∀ k' i, ¬ (k' = k ∧ i = h) → t.the_table k' i = s.the_table k' i)
          ∧ size t = size s - 1
          ∧ (Counted s → size t + 1 = size s)
          ∧ t.the_capacity = s.the_capacity
          ∧ (∀ y, y ≠ x → contains cfg t y = contains cfg s y) := by
    intro k h hk hh hmem t ht
    subst ht
    have e : (setBucket s k h ((s.the_table k h).remove x)).the_table k h
        = (s.the_table k h).remove x := by simp [setBucket]
    refine ⟨e, ?_, ?_, rfl, ?_, rfl, ?_⟩
    · show ((setBucket s k h ((s.the_table k h).remove x)).the_table k h).count x + 1 = _
      rw [e]
      have hpos : 0 < (s.the_table k h).count x := List.count_pos_iff.mpr hmem
      simp only [ProbeSet.remove, List.count_erase_self]
      omega
    · intro k' i hne
      simp [setBucket, hne]
    · intro hc
      have hle := bucket_le_occupancy s k h hk (hh hc.1)
      have hpos : 0 < (s.the_table k h).length := List.length_pos_of_mem hmem
      have := hc.2
      simp only [size] at this ⊢
      omega
    · intro y hy
      have hm : ∀ k' i, y ∈ (setBucket s k h ((s.the_table k h).remove x)).the_table k' i
          ↔ y ∈ s.the_table k' i := by
        intro k' i
        by_cases c : k' = k ∧ i = h
        · obtain ⟨rfl, rfl⟩ := c
          rw [e]
          simp only [ProbeSet.remove]
          exact List.mem_erase_of_ne hy
        · simp [setBucket, c]
      simp only [contains, contains_nolock, ProbeSet.contains]
      show (decide (y ∈ (setBucket s k h ((s.the_table k h).remove x)).the_table 0 _)
          || decide (y ∈ (setBucket s k h ((s.the_table k h).remove x)).the_table 1 _)) = _
      simp only [hm]
      rfl
  by_cases c0 : (s.the_table 0 (cfg.h0 x % s.the_capacity)).contains x = true
  · have m0 : x ∈ s.the_table 0 (cfg.h0 x % s.the_capacity) := by
      simpa [ProbeSet.contains] using c0
    have hr : remove cfg s x = (true, { setBucket s 0 (cfg.h0 x % s.the_capacity)
        ((s.the_table 0 (cfg.h0 x % s.the_capacity)).remove x)
          with the_size := s.the_size - 1 }) := by
      simp only [remove, c0, if_true]
    rw [hr]
    refine ⟨by simp, fun _ => ⟨0, _, Or.inl ⟨rfl, rfl, m0⟩, ?_⟩⟩
    exact frame 0 _ (by decide) (fun hc => Nat.mod_lt _ hc) m0 _ rfl
  · by_cases c1 : (s.the_table 1 (cfg.h1 x % s.the_capacity)).contains x = true
    · have m0 : x ∉ s.the_table 0 (cfg.h0 x % s.the_capacity) := by
        simpa [ProbeSet.contains] using c0
      have m1 : x ∈ s.the_table 1 (cfg.h1 x % s.the_capacity) := by
        simpa [ProbeSet.contains] using c1
      have hr : remove cfg s x = (true, { setBucket s 1 (cfg.h1 x % s.the_capacity)
          ((s.the_table 1 (cfg.h1 x % s.the_capacity)).remove x)
            with the_size := s.the_size - 1 }) := by
        simp only [remove, c0, c1, if_true, if_false, Bool.false_eq_true]
      rw [hr]
      refine ⟨by simp, fun _ => ⟨1, _, Or.inr ⟨rfl, rfl, m1, m0⟩, ?_⟩⟩
      exact frame 1 _ (by decide) (fun hc => Nat.mod_lt _ hc) m1 _ rfl
    · have hr : remove cfg s x = (false, s) := by
        simp only [remove, c0, c1, if_false, Bool.false_eq_true]
      rw [hr]
      exact ⟨fun _ => rfl, by simp⟩

/-! ## Remove, then insert again -/

/-- C13 (remove, then insert again): with `0 < PROBE_THRESHOLD`, for every hash
pair and every element `a`, on the freshly constructed set `put a` returns, the
`remove a` after it returns true, the second `put a` returns, and in the state
after the three calls `contains a` is true, `a` occurs exactly once over all
buckets of both tables, and `size()` is 1. -/
theorem remove_then_reinsert (cfg : Config) (a fuel : Nat)
    (hT : 0 < cfg.PROBE_THRESHOLD) :
    ∃ s1 s3, put cfg (fuel + 1) init a = .ok s1
      ∧ (remove cfg s1 a).1 = true
      ∧ put cfg (fuel + 1) (remove cfg s1 a).2 a = .ok s3
      ∧ run cfg (fuel + 1) init [.put a, .remove a, .put a] = .ok s3
      ∧ contains cfg s3 a = true
      ∧ occurrences s3 a = 1
      ∧ size s3 = 1 := by
  have hb : cfg.h0 a % init.the_capacity < init.the_capacity := Nat.mod_lt _ (by decide)
  -- first put: fast path into the empty table-0 bucket
  have c1 : contains_nolock cfg init a = false := by
    simp [contains_nolock, init, ProbeSet.contains]
  have p1 := put_fast0 cfg fuel init a c1 (by simpa [init, ProbeSet.size] using hT)
  generalize hs1 : ({ setBucket init 0 (cfg.h0 a % init.the_capacity)
      ((init.the_table 0 (cfg.h0 a % init.the_capacity)).add a)
        with the_size := init.the_size + 1 } : State) = s1 at p1
  have cap1 : s1.the_capacity = init.the_capacity := by rw [← hs1]; rfl
  have size1 : s1.the_size = 1 := by rw [← hs1]; rfl
  have b1 : s1.the_table 0 (cfg.h0 a % init.the_capacity) = [a] := by
    rw [← hs1]; simp [setBucket, init, ProbeSet.add]
  have t1 : ∀ i, s1.the_table 1 i = [] := by
    intro i; rw [← hs1]; simp [setBucket, init]
  have o1 : occurrences s1 a = 1 := by
    have o := occurrences_setBucket init 0 (cfg.h0 a % init.the_capacity) a
      ((init.the_table 0 (cfg.h0 a % init.the_capacity)).add a) (by decide) hb
    rw [← hs1, occurrences_with_size]
    rw [occurrences_init] at o
    simp [init, ProbeSet.add] at o
    exact o
  -- remove: found in the table-0 bucket
  have r1 : remove cfg s1 a = (true, { setBucket s1 0 (cfg.h0 a % init.the_capacity)
      ((s1.the_table 0 (cfg.h0 a % init.the_capacity)).remove a)
        with the_size := s1.the_size - 1 }) := by
    simp [remove, cap1, b1, ProbeSet.contains]
  generalize hs2 : ({ setBucket s1 0 (cfg.h0 a % init.the_capacity)
      ((s1.the_table 0 (cfg.h0 a % init.the_capacity)).remove a)
        with the_size := s1.the_size - 1 } : State) = s2 at r1
  have cap2 : s2.the_capacity = init.the_capacity := by rw [← hs2]; exact cap1
  have size2 : s2.the_size = 0 := by rw [← hs2]; simp [size1]
  have b2 : s2.the_table 0 (cfg.h0 a % init.the_capacity) = [] := by
    rw [← hs2]; simp [setBucket, b1, ProbeSet.remove]
  have t2 : ∀ i, s2.the_table 1 i = [] := by
    intro i; rw [← hs2]; simp [setBucket, t1]
  have o2 : occurrences s2 a = 0 := by
    have o := occurrences_setBucket s1 0 (cfg.h0 a % init.the_capacity) a
      ((s1.the_table 0 (cfg.h0 a % init.the_capacity)).remove a) (by decide)
      (by rw [cap1]; exact hb)
    rw [← hs2, occurrences_with_size]
    rw [o1, b1] at o
    rw [b1]
    simp [ProbeSet.remove] at o ⊢
    exact o
  -- second put: fast path again
  have c2 : contains_nolock cfg s2 a = false := by
    simp [contains_nolock, cap2, b2, t2, ProbeSet.contains]
  have p2 := put_fast0 cfg fuel s2 a c2
    (by rw [cap2, b2]; simpa [ProbeSet.size] using hT)
  rw [cap2] at p2
  generalize hs3 : ({ setBucket s2 0 (cfg.h0 a % init.the_capacity)
      ((s2.the_table 0 (cfg.h0 a % init.the_capacity)).add a)
        with the_size := s2.the_size + 1 } : State) = s3 at p2
  have cap3 : s3.the_capacity = init.the_capacity := by rw [← hs3]; exact cap2
  have b3 : s3.the_table 0 (cfg.h0 a % init.the_capacity) = [a] := by
    rw [← hs3]; simp [setBucket, b2, ProbeSet.add]
  have o3 : occurrences s3 a = 1 := by
    have o := occurrences_setBucket s2 0 (cfg.h0 a % init.the_capacity) a
      ((s2.the_table 0 (cfg.h0 a % init.the_capacity)).add a) (by decide)
      (by rw [cap2]; exact hb)
    rw [← hs3, occurrences_with_size]
    rw [o2, b2] at o
    rw [b2]
    simp [ProbeSet.add] at o ⊢
    exact o
  refine ⟨s1, s3, p1, by rw [r1], by rw [r1]; exact p2, ?_, ?_, o3, ?_⟩
  · simp only [run, step, p1, r1, p2]
  · simp [contains, contains_nolock, cap3, b3, ProbeSet.contains]
  · rw [← hs3]; simp [size, size2]

/-- C13 at a concrete input: element 7 under `idCfg`. -/
theorem remove_then_reinsert_witness :
    0 < idCfg.PROBE_THRESHOLD
      ∧ ∃ s1 s3, put idCfg 1 init 7 = .ok s1
        ∧ (remove idCfg s1 7).1 = true
        ∧ put idCfg 1 (remove idCfg s1 7).2 7 = .ok s3
        ∧ run idCfg 1 init [.put 7, .remove 7, .put 7] = .ok s3
        ∧ contains idCfg s3 7 = true
        ∧ occurrences s3 7 = 1
        ∧ size s3 = 1 :=
  ⟨by decide, remove_then_reinsert idCfg 7 0 (by decide)⟩

/-! ## Relocation keeps the contents -/

theorem count_tableContents (s : State) (k x : Nat) :
    (tableContents s k).count x = tableOccurrences s k x := by
  unfold tableContents tableOccurrences
  rw [Multiset.count_sum']
  exact Finset.sum_congr rfl (fun i _ => Multiset.coe_count x (s.the_table k i))

theorem count_contents (s : State) (x : Nat) : (contents s).count x = occurrences s x := by
  unfold contents occurrences
  rw [Multiset.count_add, count_tableContents, count_tableContents]

theorem contents_eq_of_occurrences (s s' : State)
    (h : ∀ x, occurrences s' x = occurrences s x) : contents s' = contents s := by
  apply Multiset.ext.mpr
  intro x
  rw [count_contents, count_contents, h x]

theorem first_mem {b : ProbeSet} {y : Nat} (h : b.first = some y) : y ∈ b := by
  cases b with
  | nil => simp [ProbeSet.first] at h
  | cons a t =>
    simp only [ProbeSet.first, List.head?_cons, Option.some.injEq] at h
    rw [← h]
    exact List.mem_cons_self a t

theorem first_of_ne_nil {b : ProbeSet} (h : b ≠ []) : ∃ y, b.first = some y := by
  cases b with
  | nil => exact absurd rfl h
  | cons a t => exact ⟨a, rfl⟩

/-- Moving `y` out of one bucket and into another keeps every count. -/
theorem occurrences_move (s : State) (i j hi hj y x : Nat) (hi1 : i ≤ 1) (hj1 : j ≤ 1)
    (hhi : hi < s.the_capacity) (hhj : hj < s.the_capacity) (hmem : y ∈ s.the_table i hi) :
    occurrences (setBucket (setBucket s i hi ((s.the_table i hi).remove y)) j hj
        (((setBucket s i hi ((s.the_table i hi).remove y)).the_table j hj).add y)) x
      = occurrences s x := by
  have o1 := occurrences_setBucket s i hi x ((s.the_table i hi).remove y) hi1 hhi
  have o2 := occurrences_setBucket (setBucket s i hi ((s.the_table i hi).remove y)) j hj x
    (((setBucket s i hi ((s.the_table i hi).remove y)).the_table j hj).add y) hj1 hhj
  generalize setBucket s i hi ((s.the_table i hi).remove y) = s1 at o1 o2 ⊢
  generalize occurrences (setBucket s1 j hj ((s1.the_table j hj).add y)) x = n2 at o2 ⊢
  simp only [ProbeSet.remove, ProbeSet.add, List.count_append] at o1 o2
  by_cases e : x = y
  · subst e
    have hpos : 0 < (s.the_table i hi).count x := List.count_pos_iff.mpr hmem
    simp only [List.count_erase_self, List.count_singleton_self] at o1 o2
    omega
  · have e' : ¬ y = x := fun h => e h.symm
    simp only [List.count_erase_of_ne e, List.count_singleton, beq_iff_eq, e', if_false] at o1 o2
    omega

theorem relocateLoop_moves (cfg : Config) :
    ∀ (n : Nat) (s : State) (i j hi : Nat),
      s.the_table i hi ≠ [] → i ≤ 1 → j = 1 - i → hi < s.the_capacity →
      ∃ b s', relocateLoop cfg n s i j hi = .ok (b, s')
        ∧ s'.the_capacity = s.the_capacity ∧ s'.the_size = s.the_size
        ∧ ∀ x, occurrences s' x = occurrences s x := by
  intro n
  induction n with
  | zero =>
    intro s i j hi _ _ _ _
    exact ⟨false, s, rfl, rfl, rfl, fun _ => rfl⟩
  | succ n ih =>
    intro s i j hi hne hi1 hj hhi
    obtain ⟨y, hy⟩ := first_of_ne_nil hne
    have hmem : y ∈ s.the_table i hi := first_mem hy
    have hcont : (s.the_table i hi).contains y = true := by
      simpa [ProbeSet.contains] using hmem
    have hj1 : j ≤ 1 := by omega
    have hc : 0 < s.the_capacity := by omega
    have hhj : (if i = 0 then cfg.h1 y else cfg.h0 y) % s.the_capacity < s.the_capacity :=
      Nat.mod_lt _ hc
    simp only [relocateLoop, hy, hcont, if_true]
    generalize (if i = 0 then cfg.h1 y else cfg.h0 y) % s.the_capacity = hj' at hhj ⊢
    have mv := fun x => occurrences_move s i j hi hj' y x hi1 hj1 hhi hhj hmem
    by_cases c1 : ((setBucket s i hi ((s.the_table i hi).remove y)).the_table j hj').size
        < cfg.PROBE_THRESHOLD
    · simp only [c1, if_true]
      exact ⟨true, _, rfl, rfl, rfl, mv⟩
    · simp only [c1, if_false]
      by_cases c2 : ((setBucket s i hi ((s.the_table i hi).remove y)).the_table j hj').size
          < cfg.PROBE_SIZE
      · simp only [c2, if_true]
        obtain ⟨b, s', hr, hcap, hsz, hocc⟩ := ih
          (setBucket (setBucket s i hi ((s.the_table i hi).remove y)) j hj'
            (((setBucket s i hi ((s.the_table i hi).remove y)).the_table j hj').add y))
          (1 - i) i hj'
          (by rw [← hj]; simp [setBucket, ProbeSet.add]) (by omega) (by omega) hhj
        exact ⟨b, s', hr, hcap, hsz, fun x => (hocc x).trans (mv x)⟩
      · simp only [c2, if_false]
        refine ⟨false, _, rfl, rfl, rfl, fun x => ?_⟩
        have o := occurrences_move s i i hi hi y x hi1 hi1 hhi hhi hmem
        exact o

/-- C17 (relocation loses no data): started on a non-empty bucket `(k, h)` of the
tables, `relocate` returns, and whatever flag it returns, the multiset of all
elements stored across both tables, `size()` and the capacity are as before;
and a hop that finds the destination bucket full returns false with the source
bucket holding the same elements as before the hop and every other bucket
untouched. -/
theorem relocate_keeps_contents (cfg : Config) (s : State) (k h : Nat)
    (hk : k ≤ 1) (hh : h < s.the_capacity) (hne : s.the_table k h ≠ []) :
    (∃ b s', relocate cfg s k h = .ok (b, s')
        ∧ contents s' = contents s ∧ size s' = size s
        ∧ s'.the_capacity = s.the_capacity)
    ∧ (∀ (rounds : Nat) (t : State) (i hi y : Nat), i ≤ 1 →
        (t.the_table i hi).first = some y →
        ¬ (t.the_table (1 - i) ((if i = 0 then cfg.h1 y else cfg.h0 y) % t.the_capacity)).size
            < cfg.PROBE_THRESHOLD →
        ¬ (t.the_table (1 - i) ((if i = 0 then cfg.h1 y else cfg.h0 y) % t.the_capacity)).size
            < cfg.PROBE_SIZE →
        ∃ t', relocateLoop cfg (rounds + 1) t i (1 - i) hi = .ok (false, t')
          ∧ (t'.the_table i hi).Perm (t.the_table i hi)
          ∧ (∀ k' i', ¬ (k' = i ∧ i' = hi) → t'.the_table k' i' = t.the_table k' i')
          ∧ size t' = size t ∧ t'.the_capacity = t.the_capacity) := by
  constructor
  · obtain ⟨b, s', hr, hcap, hsz, hocc⟩ :=
      relocateLoop_moves cfg RELOCATE_LIMIT s k (1 - k) h hne hk rfl hh
    exact ⟨b, s', hr, contents_eq_of_occurrences s s' hocc, hsz, hcap⟩
  · intro rounds t i hi y hi1 hy c1 c2
    have hmem : y ∈ t.the_table i hi := first_mem hy
    have hcont : (t.the_table i hi).contains y = true := by
      simpa [ProbeSet.contains] using hmem
    have hji : ¬ (1 - i = i) := by omega
    have hdest : ∀ hj, (setBucket t i hi ((t.the_table i hi).remove y)).the_table (1 - i) hj
        = t.the_table (1 - i) hj := by
      intro hj
      simp [setBucket, hji]
    simp only [relocateLoop, hy, hcont, if_true, hdest, c1, c2, if_false]
    refine ⟨_, rfl, ?_, ?_, rfl, rfl⟩
    · have e : (setBucket (setBucket t i hi ((t.the_table i hi).remove y)) i hi
          (((t.the_table i hi).remove y).add y)).the_table i hi
          = (t.the_table i hi).erase y ++ [y] := by
        simp [setBucket, ProbeSet.add, ProbeSet.remove]
      have e' : (setBucket t i hi ((t.the_table i hi).remove y)).the_table i hi
          = (t.the_table i hi).remove y := by simp [setBucket]
      rw [e', e]
      exact (List.perm_append_comm.trans (List.perm_cons_erase hmem).symm)
    · intro k' i' hne'
      simp [setBucket, hne']

/-- C17 at a concrete input: `relocate(0, 0)` in `nearFullState` under `idCfg`. -/
theorem relocate_keeps_contents_witness :
    (0 ≤ 1 ∧ 0 < nearFullState.the_capacity ∧ nearFullState.the_table 0 0 ≠ [])
      ∧ ∃ b s', relocate idCfg nearFullState 0 0 = .ok (b, s')
        ∧ contents s' = contents nearFullState ∧ size s' = size nearFullState
        ∧ s'.the_capacity = nearFullState.the_capacity :=
  ⟨by decide,
    (relocate_keeps_contents idCfg nearFullState 0 0 (by decide) (by decide) (by decide)).1⟩

/-! ## Sequential execution of the relocation walk -/

theorem relocateLogged_sequential (cfg : Config) :
    ∀ (n : Nat) (s : State) (i j hi : Nat),
      s.the_table i hi ≠ [] → i ≤ 1 → j = 1 - i →
      (∀ e ∈ (relocateLogged cfg n s i j hi).2, e.sequential)
        ∧ ∀ f, (relocateLogged cfg n s i j hi).1 ≠ .error f := by
  intro n
  induction n with
  | zero =>
    intro s i j hi _ _ _
    refine ⟨?_, ?_⟩
    · intro e he
      simp only [relocateLogged, List.mem_singleton] at he
      rw [he]; trivial
    · intro f hf
      simp [relocateLogged] at hf
  | succ n ih =>
    intro s i j hi hne hi1 hj
    obtain ⟨y, hy⟩ := first_of_ne_nil hne
    have hmem : y ∈ s.the_table i hi := first_mem hy
    have hcont : (s.the_table i hi).contains y = true := by
      simpa [ProbeSet.contains] using hmem
    have hpos : 0 < (s.the_table i hi).size := List.length_pos_of_mem hmem
    simp only [relocateLogged, hy, hcont, if_true]
    generalize (if i = 0 then cfg.h1 y else cfg.h0 y) % s.the_capacity = hj'
    have head : ∀ (a : Nat) (t1 t2 : State) (e : Event),
        e ∈ [Event.peek (s.the_table i hi).size, Event.recheck true, Event.state t1,
          Event.add a, Event.state t2] → e.sequential := by
      intro a t1 t2 e he
      simp only [List.mem_cons, List.mem_singleton, List.not_mem_nil, or_false] at he
      rcases he with rfl | rfl | rfl | rfl | rfl
      · exact hpos
      · rfl
      · trivial
      · trivial
      · trivial
    by_cases c1 : ((setBucket s i hi ((s.the_table i hi).remove y)).the_table j hj').size
        < cfg.PROBE_THRESHOLD
    · simp only [c1, if_true]
      exact ⟨head _ _ _, fun f hf => by simp at hf⟩
    · simp only [c1, if_false]
      by_cases c2 : ((setBucket s i hi ((s.the_table i hi).remove y)).the_table j hj').size
          < cfg.PROBE_SIZE
      · simp only [c2, if_true]
        obtain ⟨hlog, hres⟩ := ih
          (setBucket (setBucket s i hi ((s.the_table i hi).remove y)) j hj'
            (((setBucket s i hi ((s.the_table i hi).remove y)).the_table j hj').add y))
          (1 - i) i hj'
          (by rw [← hj]; simp [setBucket, ProbeSet.add]) (by omega) (by omega)
        refine ⟨?_, hres⟩
        intro e he
        rcases List.mem_append.mp he with h1 | h2
        · exact head _ _ _ e h1
        · exact hlog e h2
      · simp only [c2, if_false]
        exact ⟨head _ _ _, fun f hf => by simp at hf⟩

theorem relocateOrResizeLogged_sequential (cfg : Config) (s : State) (i h : Nat)
    (hne : s.the_table i h ≠ []) (hi1 : i ≤ 1) :
    (∀ e ∈ (relocateOrResizeLogged cfg s i h).2, e.sequential)
      ∧ ∀ f, (relocateOrResizeLogged cfg s i h).1 ≠ .error f := by
  obtain ⟨hlog, hres⟩ := relocateLogged_sequential cfg RELOCATE_LIMIT s i (1 - i) h hne hi1 rfl
  unfold relocateOrResizeLogged
  simp only
  split
  · next e he => exact absurd he (hres e)
  · exact ⟨hlog, fun f hf => by simp at hf⟩
  · refine ⟨?_, fun f hf => by simp at hf⟩
    intro e he
    rcases List.mem_append.mp he with h1 | h2
    · exact hlog e h1
    · simp only [List.mem_cons, List.mem_singleton, List.not_mem_nil, or_false] at h2
      rcases h2 with rfl | rfl <;> trivial

theorem putLogged_sequential (cfg : Config) :
    ∀ (fuel : Nat) (s : State) (x : Nat),
      (∀ e ∈ (putLogged cfg fuel s x).2, e.sequential)
        ∧ (putLogged cfg fuel s x).1 ≠ .error .first_on_empty := by
  intro fuel
  induction fuel with
  | zero =>
    intro s x
    exact ⟨fun e he => by simp [putLogged] at he, fun hf => by simp [putLogged] at hf⟩
  | succ fuel ih =>
    intro s x
    have two : ∀ (a : Nat) (t : State) (e : Event),
        e ∈ [Event.add a, Event.state t] → e.sequential := by
      intro a t e he
      simp only [List.mem_cons, List.mem_singleton, List.not_mem_nil, or_false] at he
      rcases he with rfl | rfl <;> trivial
    have over : ∀ (k h : Nat) (b : ProbeSet) (m : Nat), k ≤ 1 →
        let s1 : State := { setBucket s k h (b.add x) with the_size := m }
        (∀ e ∈ [Event.add b.size, Event.state s1] ++ (relocateOrResizeLogged cfg s1 k h).2,
            e.sequential)
          ∧ (relocateOrResizeLogged cfg s1 k h).1 ≠ .error .first_on_empty := by
      intro k h b m hk s1
      have hne : s1.the_table k h ≠ [] := by
        simp [s1, setBucket, ProbeSet.add]
      obtain ⟨hlog, hres⟩ := relocateOrResizeLogged_sequential cfg s1 k h hne hk
      refine ⟨?_, hres _⟩
      intro e he
      rcases List.mem_append.mp he with h1 | h2
      · exact two _ _ e h1
      · exact hlog e h2
    simp only [putLogged]
    split
    · exact ⟨fun e he => by simp at he, fun hf => by simp at hf⟩
    · split
      · exact ⟨two _ _, fun hf => by simp at hf⟩
      · split
        · exact ⟨two _ _, fun hf => by simp at hf⟩
        · split
          · exact over 0 _ _ _ (by decide)
          · split
            · exact over 1 _ _ _ (by decide)
            · obtain ⟨hlog, hres⟩ := ih (resize s) x
              refine ⟨?_, hres⟩
              intro e he
              rcases List.mem_append.mp he with h1 | h2
              · simp only [List.mem_cons, List.mem_singleton, List.not_mem_nil, or_false] at h1
                rcases h1 with rfl | rfl <;> trivial
              · exact hlog e h2

/-- C20 (relocate never peeks an empty bucket): in every call of `put`, from any
state, every loop iteration of a relocation walk that `put` starts reads
`first()` from a bucket that is not empty, every re-check finds the element
that was read, the branches of lines 211-215 are never taken, and `put` never
fails on an empty bucket. -/
theorem relocate_never_peeks_empty (cfg : Config) (fuel : Nat) (s : State) (x : Nat) :
    (∀ e ∈ (putLogged cfg fuel s x).2, e.sequential)
      ∧ (∀ occ, Event.peek occ ∈ (putLogged cfg fuel s x).2 → 0 < occ)
      ∧ (∀ found, Event.recheck found ∈ (putLogged cfg fuel s x).2 → found = true)
      ∧ Event.skipped ∉ (putLogged cfg fuel s x).2
      ∧ Event.drained ∉ (putLogged cfg fuel s x).2
      ∧ put cfg fuel s x ≠ .error .first_on_empty := by
  obtain ⟨hlog, hres⟩ := putLogged_sequential cfg fuel s x
  rw [putLogged_fst] at hres
  exact ⟨hlog, fun occ h => hlog _ h, fun found h => hlog _ h, fun h => hlog _ h,
    fun h => hlog _ h, hres⟩

/-! ## The bucket bound -/

theorem bounded_setBucket (cfg : Config) (s : State) (k h : Nat) (b : ProbeSet)
    (hs : Bounded cfg s) (hb : b.size ≤ cfg.PROBE_SIZE) : Bounded cfg (setBucket s k h b) := by
  intro k' i'
  simp only [setBucket]
  split
  · exact hb
  · exact hs k' i'

theorem bounded_with_size (cfg : Config) (s : State) (n : Nat) (hs : Bounded cfg s) :
    Bounded cfg { s with the_size := n } := hs

theorem bounded_resize (cfg : Config) (s : State) (hs : Bounded cfg s) :
    Bounded cfg (resize s) := by
  intro k i
  simp only [resize]
  split
  · exact hs k i
  · exact Nat.zero_le _

theorem bounded_init (cfg : Config) : Bounded cfg init := fun _ _ => Nat.zero_le _

theorem relocateLogged_within (cfg : Config) (hTS : cfg.PROBE_THRESHOLD ≤ cfg.PROBE_SIZE) :
    ∀ (n : Nat) (s : State) (i j hi : Nat), Bounded cfg s →
      (∀ e ∈ (relocateLogged cfg n s i j hi).2, e.within cfg)
        ∧ ∀ b s', (relocateLogged cfg n s i j hi).1 = .ok (b, s') → Bounded cfg s' := by
  intro n
  induction n with
  | zero =>
    intro s i j hi hs
    refine ⟨?_, ?_⟩
    · intro e he
      simp only [relocateLogged, List.mem_singleton] at he
      rw [he]; trivial
    · intro b s' h
      simp only [relocateLogged, Except.ok.injEq, Prod.mk.injEq] at h
      rw [← h.2]; exact hs
  | succ n ih =>
    intro s i j hi hs
    simp only [relocateLogged]
    split
    · refine ⟨?_, fun b s' h => by simp at h⟩
      intro e he
      simp only [List.mem_singleton] at he
      rw [he]; trivial
    · next y hy =>
      generalize (if i = 0 then cfg.h1 y else cfg.h0 y) % s.the_capacity = hj'
      have hmem : y ∈ s.the_table i hi := first_mem hy
      have hlen : ((s.the_table i hi).remove y).size + 1 = (s.the_table i hi).size := by
        have hpos : 0 < (s.the_table i hi).length := List.length_pos_of_mem hmem
        simp only [ProbeSet.remove, ProbeSet.size, List.length_erase_of_mem hmem]
        omega
      have hsrc := hs i hi
      have hs1 : Bounded cfg (setBucket s i hi ((s.the_table i hi).remove y)) :=
        bounded_setBucket cfg s i hi _ hs (by omega)
      generalize hg : setBucket s i hi ((s.the_table i hi).remove y) = s1 at hs1
      have e1 : s1.the_table i hi = (s.the_table i hi).remove y := by
        rw [← hg]; simp [setBucket]
      have head : ∀ (a : Nat) (t2 : State), a < cfg.PROBE_SIZE → Bounded cfg t2 →
          ∀ e ∈ [Event.peek (s.the_table i hi).size, Event.recheck true, Event.state s1,
            Event.add a, Event.state t2], e.within cfg := by
        intro a t2 ha ht2 e he
        simp only [List.mem_cons, List.mem_singleton, List.not_mem_nil, or_false] at he
        rcases he with rfl | rfl | rfl | rfl | rfl
        · trivial
        · trivial
        · exact hs1
        · exact ha
        · exact ht2
      have hadd : ∀ (k h : Nat), (s1.the_table k h).size < cfg.PROBE_SIZE →
          Bounded cfg (setBucket s1 k h ((s1.the_table k h).add y)) := by
        intro k h hlt
        refine bounded_setBucket cfg s1 k h _ hs1 ?_
        simp only [ProbeSet.add, ProbeSet.size, List.length_append, List.length_singleton]
          at hlt ⊢
        omega
      split
      · split
        · next c1 =>
          have hlt : (s1.the_table j hj').size < cfg.PROBE_SIZE := by omega
          refine ⟨head _ _ hlt (hadd j hj' hlt), ?_⟩
          intro b s' h
          simp only [Except.ok.injEq, Prod.mk.injEq] at h
          rw [← h.2]; exact hadd j hj' hlt
        · split
          · next c2 =>
            obtain ⟨hlog, hres⟩ := ih (setBucket s1 j hj' ((s1.the_table j hj').add y))
              (1 - i) i hj' (hadd j hj' c2)
            refine ⟨?_, hres⟩
            intro e he
            rcases List.mem_append.mp he with h1 | h2
            · exact head _ _ c2 (hadd j hj' c2) e h1
            · exact hlog e h2
          · have hlt : (s1.the_table i hi).size < cfg.PROBE_SIZE := by
              rw [e1]; omega
            refine ⟨head _ _ hlt (hadd i hi hlt), ?_⟩
            intro b s' h
            simp only [Except.ok.injEq, Prod.mk.injEq] at h
            rw [← h.2]; exact hadd i hi hlt
      · split
        · obtain ⟨hlog, hres⟩ := ih s i j hi hs
          refine ⟨?_, hres⟩
          intro e he
          rcases List.mem_append.mp he with h1 | h2
          · simp only [List.mem_cons, List.mem_singleton, List.not_mem_nil, or_false] at h1
            rcases h1 with rfl | rfl | rfl <;> trivial
          · exact hlog e h2
        · refine ⟨?_, ?_⟩
          · intro e he
            simp only [List.mem_cons, List.mem_singleton, List.not_mem_nil, or_false] at he
            rcases he with rfl | rfl | rfl <;> trivial
          · intro b s' h
            simp only [Except.ok.injEq, Prod.mk.injEq] at h
            rw [← h.2]; exact hs

theorem relocateOrResizeLogged_within (cfg : Config)
    (hTS : cfg.PROBE_THRESHOLD ≤ cfg.PROBE_SIZE) (s : State) (i h : Nat)
    (hs : Bounded cfg s) :
    (∀ e ∈ (relocateOrResizeLogged cfg s i h).2, e.within cfg)
      ∧ ∀ s', (relocateOrResizeLogged cfg s i h).1 = .ok s' → Bounded cfg s' := by
  obtain ⟨hlog, hres⟩ := relocateLogged_within cfg hTS RELOCATE_LIMIT s i (1 - i) h hs
  unfold relocateOrResizeLogged
  simp only
  split
  · exact ⟨hlog, fun s' h => by simp at h⟩
  · next s1 h1 =>
    refine ⟨hlog, fun s' h => ?_⟩
    simp only [Except.ok.injEq] at h
    rw [← h]; exact hres _ _ h1
  · next s1 h1 =>
    have hb : Bounded cfg (resize s1) := bounded_resize cfg s1 (hres _ _ h1)
    refine ⟨?_, fun s' h => ?_⟩
    · intro e he
      rcases List.mem_append.mp he with h1 | h2
      · exact hlog e h1
      · simp only [List.mem_cons, List.mem_singleton, List.not_mem_nil, or_false] at h2
        rcases h2 with rfl | rfl
        · trivial
        · exact hb
    · simp only [Except.ok.injEq] at h
      rw [← h]; exact hb

theorem putLogged_within (cfg : Config) (hTS : cfg.PROBE_THRESHOLD ≤ cfg.PROBE_SIZE) :
    ∀ (fuel : Nat) (s : State) (x : Nat), Bounded cfg s →
      (∀ e ∈ (putLogged cfg fuel s x).2, e.within cfg)
        ∧ ∀ s', (putLogged cfg fuel s x).1 = .ok s' → Bounded cfg s' := by
  intro fuel
  induction fuel with
  | zero =>
    intro s x _
    exact ⟨fun e he => by simp [putLogged] at he, fun s' h => by simp [putLogged] at h⟩
  | succ fuel ih =>
    intro s x hs
    have hadd : ∀ (k h m : Nat), (s.the_table k h).size < cfg.PROBE_SIZE →
        Bounded cfg { setBucket s k h ((s.the_table k h).add x) with the_size := m } := by
      intro k h m hlt
      refine bounded_setBucket cfg s k h _ hs ?_
      simp only [ProbeSet.add, ProbeSet.size, List.length_append, List.length_singleton]
        at hlt ⊢
      omega
    have two : ∀ (a : Nat) (t : State), a < cfg.PROBE_SIZE → Bounded cfg t →
        ∀ e ∈ [Event.add a, Event.state t], e.within cfg := by
      intro a t ha ht e he
      simp only [List.mem_cons, List.mem_singleton, List.not_mem_nil, or_false] at he
      rcases he with rfl | rfl
      · exact ha
      · exact ht
    have fast : ∀ (k h m : Nat), (s.the_table k h).size < cfg.PROBE_SIZE →
        let s1 : State := { setBucket s k h ((s.the_table k h).add x) with the_size := m }
        (∀ e ∈ [Event.add (s.the_table k h).size, Event.state s1], e.within cfg)
          ∧ ∀ s', (Except.ok s1 : Except Fault State) = .ok s' → Bounded cfg s' := by
      intro k h m hlt s1
      refine ⟨two _ _ hlt (hadd k h m hlt), fun s' heq => ?_⟩
      simp only [Except.ok.injEq] at heq
      rw [← heq]; exact hadd k h m hlt
    have over : ∀ (k h m : Nat), (s.the_table k h).size < cfg.PROBE_SIZE →
        let s1 : State := { setBucket s k h ((s.the_table k h).add x) with the_size := m }
        (∀ e ∈ [Event.add (s.the_table k h).size, Event.state s1]
              ++ (relocateOrResizeLogged cfg s1 k h).2, e.within cfg)
          ∧ ∀ s', (relocateOrResizeLogged cfg s1 k h).1 = .ok s' → Bounded cfg s' := by
      intro k h m hlt s1
      obtain ⟨hlog, hres⟩ := relocateOrResizeLogged_within cfg hTS s1 k h (hadd k h m hlt)
      refine ⟨?_, hres⟩
      intro e he
      rcases List.mem_append.mp he with h1 | h2
      · exact two _ _ hlt (hadd k h m hlt) e h1
      · exact hlog e h2
    simp only [putLogged]
    split
    · refine ⟨fun e he => by simp at he, fun s' h => ?_⟩
      simp only [Except.ok.injEq] at h
      rw [← h]; exact hs
    · split
      · next c => exact fast 0 _ _ (by omega)
      · split
        · next c => exact fast 1 _ _ (by omega)
        · split
          · next c => exact over 0 _ _ c
          · split
            · next c => exact over 1 _ _ c
            · have hb := bounded_resize cfg s hs
              obtain ⟨hlog, hres⟩ := ih (resize s) x hb
              refine ⟨?_, hres⟩
              intro e he
              rcases List.mem_append.mp he with h1 | h2
              · simp only [List.mem_cons, List.mem_singleton, List.not_mem_nil, or_false] at h1
                rcases h1 with rfl | rfl
                · trivial
                · exact hb
              · exact hlog e h2

theorem bounded_remove (cfg : Config) (s : State) (x : Nat) (hs : Bounded cfg s) :
    Bounded cfg (remove cfg s x).2 := by
  have her : ∀ (k h : Nat), Bounded cfg
      { setBucket s k h ((s.the_table k h).remove x) with the_size := s.the_size - 1 } := by
    intro k h
    refine bounded_setBucket cfg s k h _ hs ?_
    have := hs k h
    have hle : ((s.the_table k h).erase x).length ≤ (s.the_table k h).length :=
      List.length_erase_le x _
    simp only [ProbeSet.remove, ProbeSet.size] at this ⊢
    omega
  unfold remove
  simp only
  split
  · exact her 0 _
  · split
    · exact her 1 _
    · exact hs

theorem run_bounded (cfg : Config) (hTS : cfg.PROBE_THRESHOLD ≤ cfg.PROBE_SIZE) (fuel : Nat) :
    ∀ (ops : List Op) (s s' : State), Bounded cfg s → run cfg fuel s ops = .ok s' →
      Bounded cfg s' := by
  intro ops
  induction ops with
  | nil =>
    intro s s' hs h
    simp only [run, Except.ok.injEq] at h
    rw [← h]; exact hs
  | cons op ops ih =>
    intro s s' hs h
    simp only [run] at h
    split at h
    · simp at h
    · next s1 h1 =>
      refine ih s1 s' ?_ h
      cases op with
      | put x =>
        simp only [step] at h1
        rw [← putLogged_fst] at h1
        exact (putLogged_within cfg hTS fuel s x hs).2 s1 h1
      | remove x =>
        simp only [step, Except.ok.injEq] at h1
        rw [← h1]; exact bounded_remove cfg s x hs

/-- C15 (bucket bound): with `PROBE_THRESHOLD ≤ PROBE_SIZE`, every state reached
from the freshly constructed set by `put` and `remove` calls has at most
`PROBE_SIZE` elements in every bucket; in every `put` and every `relocate`
started there, each `add` (the undo `add` of the failing hop included) meets a
bucket with fewer than `PROBE_SIZE` elements and each state after a write
satisfies the bound; `remove` and `resize`, at every step of its copy loop,
keep the bound. -/
theorem bucket_bound (cfg : Config) (fuel : Nat) (ops : List Op) (s : State)
    (hTS : cfg.PROBE_THRESHOLD ≤ cfg.PROBE_SIZE)
    (h : run cfg fuel init ops = .ok s) :
    Bounded cfg s
      ∧ (∀ fuel' x, ∀ e ∈ (putLogged cfg fuel' s x).2, e.within cfg)
      ∧ (∀ k hh, ∀ e ∈ (relocateLogged cfg RELOCATE_LIMIT s k (1 - k) hh).2, e.within cfg)
      ∧ (∀ x, Bounded cfg (remove cfg s x).2)
      ∧ (∀ n k i, (resizeCopy s n k i).size ≤ cfg.PROBE_SIZE)
      ∧ Bounded cfg (resize s) := by
  have hs : Bounded cfg s := run_bounded cfg hTS fuel ops init s (bounded_init cfg) h
  refine ⟨hs, fun fuel' x => (putLogged_within cfg hTS fuel' s x hs).1,
    fun k hh => (relocateLogged_within cfg hTS RELOCATE_LIMIT s k (1 - k) hh hs).1,
    fun x => bounded_remove cfg s x hs, ?_, bounded_resize cfg s hs⟩
  intro n k i
  simp only [resizeCopy]
  split
  · exact hs k i
  · exact Nat.zero_le _

/-- C15 at a concrete run: `put 7; put 9; remove 7` under `idCfg`. -/
theorem bucket_bound_witness :
    (idCfg.PROBE_THRESHOLD ≤ idCfg.PROBE_SIZE
        ∧ run idCfg 1 init [.put 7, .put 9, .remove 7]
          = .ok (stateOr (run idCfg 1 init [.put 7, .put 9, .remove 7]) init))
      ∧ Bounded idCfg (stateOr (run idCfg 1 init [.put 7, .put 9, .remove 7]) init) :=
  ⟨⟨by decide, rfl⟩, (bucket_bound idCfg 1 [.put 7, .put 9, .remove 7]
    (stateOr (run idCfg 1 init [.put 7, .put 9, .remove 7]) init) (by decide) rfl).1⟩

/-! ## The relocation bound -/

theorem relocateLogged_iterations (cfg : Config) :
    ∀ (n : Nat) (s : State) (i j hi : Nat),
      iterations (relocateLogged cfg n s i j hi).2 ≤ n
        ∧ (Event.exhausted ∈ (relocateLogged cfg n s i j hi).2 →
            iterations (relocateLogged cfg n s i j hi).2 = n
              ∧ ∃ s', (relocateLogged cfg n s i j hi).1 = .ok (false, s')) := by
  intro n
  induction n with
  | zero =>
    intro s i j hi
    exact ⟨by simp [relocateLogged, iterations, Event.isPeek],
      fun _ => ⟨by simp [relocateLogged, iterations, Event.isPeek], s, rfl⟩⟩
  | succ n ih =>
    intro s i j hi
    simp only [relocateLogged]
    split
    · exact ⟨by simp [iterations, Event.isPeek], fun h => by simp at h⟩
    · next y hy =>
      generalize (if i = 0 then cfg.h1 y else cfg.h0 y) % s.the_capacity = hj'
      split
      · split
        · exact ⟨by simp [iterations, Event.isPeek], fun h => by simp at h⟩
        · split
          · obtain ⟨hle, hex⟩ := ih
              (setBucket (setBucket s i hi ((s.the_table i hi).remove y)) j hj'
                (((setBucket s i hi ((s.the_table i hi).remove y)).the_table j hj').add y))
              (1 - i) i hj'
            simp only [iterations] at hle hex ⊢
            refine ⟨by simp [List.countP_cons, Event.isPeek]; omega, fun h => ?_⟩
            have h' := hex (by simpa using h)
            exact ⟨by simp [List.countP_cons, Event.isPeek]; omega, h'.2⟩
          · exact ⟨by simp [iterations, Event.isPeek], fun h => by simp at h⟩
      · split
        · obtain ⟨hle, hex⟩ := ih s i j hi
          simp only [iterations] at hle hex ⊢
          refine ⟨by simp [List.countP_cons, Event.isPeek]; omega, fun h => ?_⟩
          have h' := hex (by simpa using h)
          exact ⟨by simp [List.countP_cons, Event.isPeek]; omega, h'.2⟩
        · exact ⟨by simp [iterations, Event.isPeek], fun h => by simp at h⟩

theorem relocateLogged_no_resize (cfg : Config) :
    ∀ (n : Nat) (s : State) (i j hi : Nat),
      (relocateLogged cfg n s i j hi).2.countP Event.isResized = 0 := by
  intro n
  induction n with
  | zero => intro s i j hi; simp [relocateLogged, Event.isResized]
  | succ n ih =>
    intro s i j hi
    simp only [relocateLogged]
    split
    · simp [Event.isResized]
    · next y hy =>
      generalize (if i = 0 then cfg.h1 y else cfg.h0 y) % s.the_capacity = hj'
      split
      · split
        · simp [Event.isResized]
        · split
          · simp [List.countP_cons, Event.isResized, ih]
          · simp [Event.isResized]
      · split
        · simp [List.countP_cons, Event.isResized, ih]
        · simp [Event.isResized]

/-- C11 (relocation bound): from every state and start bucket, `relocate` ends
after at most `RELOCATE_LIMIT` loop iterations; when the loop ends because the
limit is reached, all `RELOCATE_LIMIT` iterations have run and `relocate`
returns false; a false return of `relocate` in lines 73-75 of `put` is followed
by exactly one `resize`, after which the capacity is twice what it was; and the
two overflow branches of `put` are lines 73-75 on the state with the element
added. -/
theorem relocation_bound (cfg : Config) (s : State) (k h : Nat) :
    (relocateLogged cfg RELOCATE_LIMIT s k (1 - k) h).1 = relocate cfg s k h
      ∧ iterations (relocateLogged cfg RELOCATE_LIMIT s k (1 - k) h).2 ≤ RELOCATE_LIMIT
      ∧ (Event.exhausted ∈ (relocateLogged cfg RELOCATE_LIMIT s k (1 - k) h).2 →
          iterations (relocateLogged cfg RELOCATE_LIMIT s k (1 - k) h).2 = RELOCATE_LIMIT
            ∧ ∃ s', relocate cfg s k h = .ok (false, s'))
      ∧ (∀ s', relocate cfg s k h = .ok (false, s') →
          relocateOrResize cfg s k h = .ok (resize s')
            ∧ (resize s').the_capacity = 2 * s.the_capacity
            ∧ (relocateOrResizeLogged cfg s k h).2.countP Event.isResized = 1)
      ∧ (∀ fuel x,
          contains_nolock cfg s x = false →
          ¬ (s.the_table 0 (cfg.h0 x % s.the_capacity)).size < cfg.PROBE_THRESHOLD →
          ¬ (s.the_table 1 (cfg.h1 x % s.the_capacity)).size < cfg.PROBE_THRESHOLD →
          ((s.the_table 0 (cfg.h0 x % s.the_capacity)).size < cfg.PROBE_SIZE →
            put cfg (fuel + 1) s x = relocateOrResize cfg
              { setBucket s 0 (cfg.h0 x % s.the_capacity)
                  ((s.the_table 0 (cfg.h0 x % s.the_capacity)).add x)
                with the_size := s.the_size + 1 } 0 (cfg.h0 x % s.the_capacity))
          ∧ (¬ (s.the_table 0 (cfg.h0 x % s.the_capacity)).size < cfg.PROBE_SIZE →
            (s.the_table 1 (cfg.h1 x % s.the_capacity)).size < cfg.PROBE_SIZE →
            put cfg (fuel + 1) s x = relocateOrResize cfg
              { setBucket s 1 (cfg.h1 x % s.the_capacity)
                  ((s.the_table 1 (cfg.h1 x % s.the_capacity)).add x)
                with the_size := s.the_size + 1 } 1 (cfg.h1 x % s.the_capacity))) := by
  obtain ⟨hle, hex⟩ := relocateLogged_iterations cfg RELOCATE_LIMIT s k (1 - k) h
  have hfst := relocateLogged_fst cfg RELOCATE_LIMIT s k (1 - k) h
  refine ⟨hfst, hle, ?_, ?_, ?_⟩
  · intro hmem
    obtain ⟨hit, s', hs'⟩ := hex hmem
    exact ⟨hit, s', by rw [← hs']; exact hfst.symm⟩
  · intro s' hr
    have hcap := (relocateLoop_capacity cfg _ _ _ _ _ _ _ hr).1
    refine ⟨by simp only [relocateOrResize, hr], ?_, ?_⟩
    · show s'.the_capacity * 2 = 2 * s.the_capacity
      omega
    · have hr' : (relocateLogged cfg RELOCATE_LIMIT s k (1 - k) h).1 = .ok (false, s') := by
        rw [hfst]; exact hr
      have hz := relocateLogged_no_resize cfg RELOCATE_LIMIT s k (1 - k) h
      simp only [relocateOrResizeLogged, hr', List.countP_append, hz]
      simp [Event.isResized]
  · intro fuel x hc a0 a1
    constructor
    · intro b0
      simp only [put, hc, a0, a1, b0, if_true, if_false, Bool.false_eq_true]
    · intro b0 b1
      simp only [put, hc, a0, a1, b0, b1, if_true, if_false, Bool.false_eq_true]

/-! ## Relocation and the threshold -/

theorem relocateLoop_threshold (cfg : Config)
    (hTS : cfg.PROBE_THRESHOLD < cfg.PROBE_SIZE) :
    ∀ (n : Nat) (s : State) (i j hi : Nat) (s' : State),
      i ≤ 1 → j = 1 - i →
      (s.the_table i hi).size = cfg.PROBE_THRESHOLD + 1 →
      (∀ k m, ¬ (k = i ∧ m = hi) → (s.the_table k m).size ≤ cfg.PROBE_THRESHOLD) →
      relocateLoop cfg n s i j hi = .ok (true, s') →
      (∀ k m, (s'.the_table k m).size ≤ cfg.PROBE_THRESHOLD)
        ∧ (∀ k m, cfg.PROBE_THRESHOLD ≤ (s.the_table k m).size →
            (s'.the_table k m).size = cfg.PROBE_THRESHOLD) := by
  intro n
  induction n with
  | zero =>
    intro s i j hi s' _ _ _ _ h
    simp [relocateLoop] at h
  | succ n ih =>
    intro s i j hi s' hi1 hj hsrc hoth h
    have hne : s.the_table i hi ≠ [] := by
      intro e
      rw [e] at hsrc
      simp [ProbeSet.size] at hsrc
    obtain ⟨y, hy⟩ := first_of_ne_nil hne
    have hmem : y ∈ s.the_table i hi := first_mem hy
    have hcont : (s.the_table i hi).contains y = true := by
      simpa [ProbeSet.contains] using hmem
    have hji : ¬ (j = i) := by omega
    simp only [relocateLoop, hy, hcont, if_true] at h
    generalize (if i = 0 then cfg.h1 y else cfg.h0 y) % s.the_capacity = hj' at h
    have hdest : (setBucket s i hi ((s.the_table i hi).remove y)).the_table j hj'
        = s.the_table j hj' := by
      simp [setBucket, hji]
    rw [hdest] at h
    have hd : (s.the_table j hj').size ≤ cfg.PROBE_THRESHOLD :=
      hoth j hj' (fun c => hji c.1)
    have herase : ((s.the_table i hi).remove y).size = cfg.PROBE_THRESHOLD := by
      have hpos : 0 < (s.the_table i hi).length := List.length_pos_of_mem hmem
      simp only [ProbeSet.size] at hsrc
      simp only [ProbeSet.remove, ProbeSet.size, List.length_erase_of_mem hmem]
      omega
    -- the sizes of the buckets after the move
    have key : ∀ k m,
        ((setBucket (setBucket s i hi ((s.the_table i hi).remove y)) j hj'
          ((s.the_table j hj').add y)).the_table k m).size
          = if k = j ∧ m = hj' then (s.the_table j hj').size + 1
            else if k = i ∧ m = hi then cfg.PROBE_THRESHOLD
            else (s.the_table k m).size := by
      intro k m
      simp only [setBucket]
      split
      · simp [ProbeSet.add, ProbeSet.size]
      · split
        · exact herase
        · rfl
    by_cases c1 : (s.the_table j hj').size < cfg.PROBE_THRESHOLD
    · simp only [c1, if_true, Except.ok.injEq, Prod.mk.injEq, true_and] at h
      rw [← h]
      refine ⟨fun k m => ?_, fun k m hk => ?_⟩
      · rw [key]
        split
        · omega
        · split
          · exact Nat.le_refl _
          · next a b => exact hoth k m b
      · rw [key]
        split
        · next a => rw [a.1, a.2] at hk; omega
        · split
          · rfl
          · next a b => have := hoth k m b; omega
    · simp only [c1, if_false] at h
      by_cases c2 : (s.the_table j hj').size < cfg.PROBE_SIZE
      · simp only [c2, if_true] at h
        have hdT : (s.the_table j hj').size = cfg.PROBE_THRESHOLD := by omega
        obtain ⟨hall, hkeep⟩ := ih _ (1 - i) i hj' s' (by omega) (by omega)
          (by rw [key, ← hj]; simp [hdT])
          (by
            intro k m hne'
            rw [key]
            have hne'' : ¬ (k = j ∧ m = hj') := by rw [hj]; exact hne'
            simp only [hne'', if_false]
            split
            · exact Nat.le_refl _
            · next b => exact hoth k m b)
          h
        refine ⟨hall, fun k m hk => ?_⟩
        apply hkeep
        rw [key]
        split
        · omega
        · split
          · exact Nat.le_refl _
          · exact hk
      · omega

theorem thresholdState_le (k i : Nat) :
    (thresholdState.the_table k i).size ≤ splitCfg.PROBE_THRESHOLD := by
  simp only [thresholdState]
  split
  · decide
  · split <;> decide

/-- The state `thresholdState` is the one `fourPuts` reaches under `splitCfg`. -/
theorem thresholdState_reached :
    ∃ s, run splitCfg 1 init fourPuts = .ok s
      ∧ s.the_capacity = thresholdState.the_capacity
      ∧ s.the_size = thresholdState.the_size
      ∧ ∀ k i, s.the_table k i = thresholdState.the_table k i := by
  refine ⟨stateOr (run splitCfg 1 init fourPuts) init, rfl, rfl, rfl, ?_⟩
  intro k i
  show (if k = 1 ∧ i = 3 then _ else _) = _
  simp only [thresholdState]
  by_cases a : k = 1 ∧ i = 3
  · obtain ⟨rfl, rfl⟩ := a
    rfl
  · by_cases b : k = 0 ∧ i = 0
    · obtain ⟨rfl, rfl⟩ := b
      rfl
    · simp only [a, b, if_false]
      show (if k = 1 ∧ i = 3 then _ else if k = 0 ∧ i = 0 then _ else if k = 0 ∧ i = 0 then _ else _) = _
      simp only [a, b, if_false]
      rfl

/-- C18 (relocation and the threshold) as stated fails: in `thresholdState`
under `splitCfg` every bucket holds at most `PROBE_THRESHOLD` elements and 2051
is absent; `put 2051` takes the overflow path through bucket 0 of table 0, the
relocation walk it starts returns true, and after `put` has returned that
bucket holds `PROBE_THRESHOLD` elements, which is not strictly below the
threshold. -/
theorem overflow_bucket_not_below_threshold :
    (∀ k i, (thresholdState.the_table k i).size ≤ splitCfg.PROBE_THRESHOLD)
      ∧ contains splitCfg thresholdState 2051 = false
      ∧ splitCfg.PROBE_THRESHOLD
          ≤ (thresholdState.the_table 0 (splitCfg.h0 2051 % thresholdState.the_capacity)).size
      ∧ (thresholdState.the_table 0 (splitCfg.h0 2051 % thresholdState.the_capacity)).size
          < splitCfg.PROBE_SIZE
      ∧ relocateFlag splitCfg (overflowed splitCfg thresholdState 2051) 0
          (splitCfg.h0 2051 % thresholdState.the_capacity) = some true
      ∧ ∃ s', put splitCfg 1 thresholdState 2051 = .ok s'
        ∧ ¬ (s'.the_table 0 (splitCfg.h0 2051 % thresholdState.the_capacity)).size
            < splitCfg.PROBE_THRESHOLD := by
  refine ⟨thresholdState_le, by decide, by decide, by decide, by decide,
    stateOr (put splitCfg 1 thresholdState 2051) init, rfl, by decide⟩

/-- C18 (relocation and the threshold), amended: with
`PROBE_THRESHOLD < PROBE_SIZE`, in every state in which all buckets hold at most
`PROBE_THRESHOLD` elements and `x` is absent, if both candidate buckets of `x`
are at the threshold (so that `put x` takes the overflow path, which then goes
through the table-0 bucket) and the relocation walk `put` starts returns true,
then `put x` returns, the bucket that received `x` holds exactly
`PROBE_THRESHOLD` elements afterwards, and every bucket holds at most
`PROBE_THRESHOLD` elements again. -/
theorem overflow_bucket_back_at_threshold (cfg : Config) (s : State) (x fuel : Nat)
    (hTS : cfg.PROBE_THRESHOLD < cfg.PROBE_SIZE)
    (hall : ∀ k i, (s.the_table k i).size ≤ cfg.PROBE_THRESHOLD)
    (habs : contains cfg s x = false)
    (h0 : ¬ (s.the_table 0 (cfg.h0 x % s.the_capacity)).size < cfg.PROBE_THRESHOLD)
    (h1 : ¬ (s.the_table 1 (cfg.h1 x % s.the_capacity)).size < cfg.PROBE_THRESHOLD)
    (hrel : relocateFlag cfg (overflowed cfg s x) 0 (cfg.h0 x % s.the_capacity) = some true) :
    (s.the_table 0 (cfg.h0 x % s.the_capacity)).size < cfg.PROBE_SIZE
      ∧ ∃ s', put cfg (fuel + 1) s x = .ok s'
        ∧ (s'.the_table 0 (cfg.h0 x % s.the_capacity)).size = cfg.PROBE_THRESHOLD
        ∧ ∀ k i, (s'.the_table k i).size ≤ cfg.PROBE_THRESHOLD := by
  have hc : contains_nolock cfg s x = false := habs
  have hs0 := hall 0 (cfg.h0 x % s.the_capacity)
  have b0 : (s.the_table 0 (cfg.h0 x % s.the_capacity)).size < cfg.PROBE_SIZE := by omega
  refine ⟨b0, ?_⟩
  have hput : put cfg (fuel + 1) s x
      = relocateOrResize cfg (overflowed cfg s x) 0 (cfg.h0 x % s.the_capacity) := by
    simp only [put, hc, h0, h1, b0, if_true, if_false, Bool.false_eq_true, overflowed]
  -- the walk returns true with some state
  obtain ⟨s', hs'⟩ : ∃ s', relocate cfg (overflowed cfg s x) 0 (cfg.h0 x % s.the_capacity)
      = .ok (true, s') := by
    unfold relocateFlag at hrel
    split at hrel
    · next b t ht =>
      simp only [Option.some.injEq] at hrel
      rw [hrel] at ht
      exact ⟨t, ht⟩
    · simp at hrel
  have hsrc : ((overflowed cfg s x).the_table 0 (cfg.h0 x % s.the_capacity)).size
      = cfg.PROBE_THRESHOLD + 1 := by
    simp only [overflowed, setBucket, and_self, if_true, ProbeSet.add, ProbeSet.size,
      List.length_append, List.length_singleton]
    simp only [ProbeSet.size] at hs0 h0
    omega
  have hoth : ∀ k m, ¬ (k = 0 ∧ m = cfg.h0 x % s.the_capacity) →
      ((overflowed cfg s x).the_table k m).size ≤ cfg.PROBE_THRESHOLD := by
    intro k m hne
    simp only [overflowed, setBucket, hne, if_false]
    exact hall k m
  obtain ⟨hle, hkeep⟩ := relocateLoop_threshold cfg hTS RELOCATE_LIMIT (overflowed cfg s x)
    0 (1 - 0) (cfg.h0 x % s.the_capacity) s' (by decide) rfl hsrc hoth hs'
  refine ⟨s', ?_, hkeep 0 _ (by omega), hle⟩
  rw [hput]
  simp only [relocateOrResize, hs']

/-- C18 amended, at a concrete input: `put 2051` in `thresholdState` under
`splitCfg`. -/
theorem overflow_bucket_back_at_threshold_witness :
    (splitCfg.PROBE_THRESHOLD < splitCfg.PROBE_SIZE
        ∧ (∀ k i, (thresholdState.the_table k i).size ≤ splitCfg.PROBE_THRESHOLD)
        ∧ contains splitCfg thresholdState 2051 = false
        ∧ ¬ (thresholdState.the_table 0 (splitCfg.h0 2051 % thresholdState.the_capacity)).size
            < splitCfg.PROBE_THRESHOLD
        ∧ ¬ (thresholdState.the_table 1 (splitCfg.h1 2051 % thresholdState.the_capacity)).size
            < splitCfg.PROBE_THRESHOLD
        ∧ relocateFlag splitCfg (overflowed splitCfg thresholdState 2051) 0
            (splitCfg.h0 2051 % thresholdState.the_capacity) = some true)
      ∧ ∃ s', put splitCfg 1 thresholdState 2051 = .ok s'
        ∧ (s'.the_table 0 (splitCfg.h0 2051 % thresholdState.the_capacity)).size
            = splitCfg.PROBE_THRESHOLD
        ∧ ∀ k i, (s'.the_table k i).size ≤ splitCfg.PROBE_THRESHOLD :=
  ⟨⟨by decide, thresholdState_le, by decide, by decide, by decide, by decide⟩,
    (overflow_bucket_back_at_threshold splitCfg thresholdState 2051 0 (by decide)
      thresholdState_le (by decide) (by decide) (by decide) (by decide)).2⟩

/-! ## Two threads, one after the other -/

set_option maxRecDepth 100000 in
/-- C14 (concurrent insertion), evaluated on the interleaving in which the first
thread finishes its three calls before the second thread starts: under `idCfg`
the six elements are inserted, one resize happens, `size()` is 6, and
`contains 1024` is false. -/
theorem sequential_interleaving_loses_element :
    observe idCfg 1 (threadA ++ threadB)
        (fun s => (s.the_capacity, size s, contains idCfg s 1024))
      = some (2048, 6, false) := by
  decide

end CuckooSet
